import Mathlib

/-!
Verification of the `file-agent` repository: a shallow embedding of the
agent/controller task manager (codec, task manager reconcile, task state
machine, cron scheduler job bookkeeping, hosts-file task, controller request
handler) together with proofs and refutations of the specification claims.

Bytes are modelled as `Nat`, byte buffers as `List Nat`.  External libraries
(bincode serialisation, zlib compression, AES-256-GCM) are parameters of the
codec definitions: the repository code composes them, so the embedding is
parametric in them, and the round-trip facts they provide in reality appear
as explicit hypotheses.  Random UUIDs are modelled by a fresh counter;
wall-clock timestamps and event ids are not modelled (no settled claim
mentions them).
-/

namespace FileAgent

namespace Codec

/-- `MAGIC` from `crates/protocol/src/lib.rs`: the four frame magic bytes. -/
def MAGIC : List Nat := [0x23, 0x33, 0x23, 0x33]

/-- `HEADER_LEN`: 4 bytes magic + 4 bytes length + 12 bytes nonce. -/
def HEADER_LEN : Nat := 4 + 4 + 12

/-- Big-endian 4-byte encoding of a `u32` value (`BytesMut::put_u32`). -/
def be32 (n : Nat) : List Nat :=
  [n / 2 ^ 24 % 256, n / 2 ^ 16 % 256, n / 2 ^ 8 % 256, n % 256]

/-- `u32::from_be_bytes` on a 4-byte slice. -/
def be32val (b : List Nat) : Nat :=
  match b with
  | [b0, b1, b2, b3] => b0 * 2 ^ 24 + b1 * 2 ^ 16 + b2 * 2 ^ 8 + b3
  | _ => 0

/-- `protocol::encode`: bincode-serialise (`ser`), zlib-compress (`comp`),
AES-256-GCM-encrypt (`encf key nonce`), then append
`MAGIC ++ (len as u32, big endian) ++ nonce ++ ciphertext` to `buf`.
The `as u32` cast is the `% 2 ^ 32`. -/
def encode {α : Type} (ser : α → List Nat) (comp : List Nat → List Nat)
    (encf : List Nat → List Nat → List Nat → List Nat)
    (key nonce : List Nat) (t : α) (buf : List Nat) : List Nat :=
  let bytes := comp (ser t)
  let encbytes := encf key nonce bytes
  buf ++ MAGIC ++ be32 (encbytes.length % 2 ^ 32) ++ nonce ++ encbytes

/-- Outcome of `protocol::decode`.  `panic` records that the Rust code
panics (out-of-range slice index such as `&buf[..4]` on a short buffer, or
the `.unwrap()` on zlib decompression). -/
inductive DecodeResult (α : Type) where
  | panic
  | notEnoughData
  | invalidData
  | ok (msg : α)
deriving DecidableEq

/-- `protocol::decode`, statement for statement.  The returned list is the
buffer left behind: unchanged until `buf.advance(HEADER_LEN)`, the frame
consumed afterwards.  `&buf[..4]` and `&buf[4..8]` panic when the buffer is
shorter than 4 resp. 8 bytes; only after reading LEN does the code compare
`buf.len() < HEADER_LEN + len` and return `NotEnoughData`. -/
def decode {α : Type} (deser : List Nat → Option α)
    (decomp : List Nat → Option (List Nat))
    (decf : List Nat → List Nat → List Nat → Option (List Nat))
    (key buf : List Nat) : DecodeResult α × List Nat :=
  if buf.length < 4 then (.panic, buf)
  else if buf.take 4 ≠ MAGIC then (.invalidData, buf)
  else if buf.length < 8 then (.panic, buf)
  else if buf.length < HEADER_LEN + be32val ((buf.drop 4).take 4) then
    (.notEnoughData, buf)
  else
    match decf key ((buf.drop 8).take 12)
        ((buf.drop HEADER_LEN).take (be32val ((buf.drop 4).take 4))) with
    | none => (.invalidData, (buf.drop HEADER_LEN).drop (be32val ((buf.drop 4).take 4)))
    | some bytes =>
      match decomp bytes with
      | none => (.panic, (buf.drop HEADER_LEN).drop (be32val ((buf.drop 4).take 4)))
      | some objbytes =>
        match deser objbytes with
        | none => (.invalidData, (buf.drop HEADER_LEN).drop (be32val ((buf.drop 4).take 4)))
        | some msg => (.ok msg, (buf.drop HEADER_LEN).drop (be32val ((buf.drop 4).take 4)))

end Codec

/-! ## Data model (`crates/protocol/src/message.rs`) -/

/-- `Action` (the OnError policy). -/
inductive Action where
  | retry (times : Nat) (interval : Nat)
  | ignore
deriving DecidableEq

/-- `TriggerSpec`. -/
inductive TriggerSpec where
  | cron (expr : String)
  | immediate
  | startup
deriving DecidableEq

/-- `FileSpec`. -/
structure FileSpec where
  path : String
  url : String
deriving DecidableEq

/-- `CommandSpec`. -/
structure CommandSpec where
  cmd : String
  args : List String
  cwd : String
  shell : Bool
deriving DecidableEq

/-- `HostSpec`. -/
structure HostSpec where
  ip : String
  hosts : List String
deriving DecidableEq

/-- `TaskType`. -/
inductive TaskType where
  | fileUpdate (spec : FileSpec)
  | command (spec : CommandSpec)
  | hosts (spec : HostSpec)
deriving DecidableEq

/-- `TaskSpec`; `==` on it is field-wise, as derived in the source. -/
structure TaskSpec where
  name : String
  task : TaskType
  on_error : Action
  triggers : List TriggerSpec
deriving DecidableEq

/-- `TaskSpecError`. -/
inductive TaskSpecError where
  | invalidCronExpresion
deriving DecidableEq

/-- `TaskError`. -/
inductive TaskError where
  | taskNotFound
  | taskSpecError (e : TaskSpecError)
  | unsupportedPlatform (os : String)
  | ioError (msg : String)
  | netError (msg : String)
  | runtimeError (msg : String)
deriving DecidableEq

/-- `TaskResult`. -/
structure TaskResult where
  status : Option Int
  message : String
deriving DecidableEq

/-- `EventType`. -/
inductive EventType where
  | triggerInstall
  | deactivate
  | run
deriving DecidableEq

deriving instance DecidableEq for Except

/-- `Event`, with the random id and the wall-clock `start`/`end` stamps
omitted: no settled claim mentions them. -/
structure Event where
  type_ : EventType
  result : Except TaskError TaskResult
deriving DecidableEq

/-- The result carried by successful install/uninstall events. -/
def okResult : Except TaskError TaskResult :=
  .ok { status := some 0, message := "" }

/-! ## Agent runtime (`crates/agent/src/{trigger,task,manager,cron}.rs`)

`Uuid::new_v4` (job ids) is modelled by a fresh counter carried in the
scheduler state; `parse : String → Bool` models
`cron_expr.parse::<Schedule>()`, a pure function of the expression string.
The async mutexes serialise every manager operation in the source, so the
operations are modelled as sequential state transformers. -/

namespace Agent

/-- Runtime trigger (`trigger.rs`): a `CronTrigger` holds its expression
and optional scheduler job handle; Immediate and Startup hold nothing. -/
inductive Trigger where
  | cron (expr : String) (jobId : Option Nat)
  | immediate
  | startup
deriving DecidableEq

/-- `Task::make_trigger`: fresh triggers have no job handle. -/
def makeTrigger : TriggerSpec → Trigger
  | .cron expr => .cron expr none
  | .immediate => .immediate
  | .startup => .startup

/-- `TaskState`. -/
inductive TaskState where
  | activated
  | deactivated
deriving DecidableEq

/-- `task.rs`'s `Task`.  `body` is the `TaskType` the execution context's
`AsyncTask` was built from (`Task::make_task`); `buffer` is the context's
`run_history`.  The shared `CronScheduler` reference is passed explicitly
to each operation instead of being stored. -/
structure Task where
  spec : TaskSpec
  body : TaskType
  triggers : List Trigger
  state : TaskState
  buffer : List Event
deriving DecidableEq

/-- `Task::new`. -/
def Task.new (spec : TaskSpec) : Task :=
  { spec := spec
    body := spec.task
    triggers := spec.triggers.map makeTrigger
    state := .deactivated
    buffer := [] }

/-- The `CronScheduler`'s job list (the ids of its `ScheduledJob`s, in
insertion order; schedules and closures carry no claim-relevant data)
together with the fresh-id supply modelling `Uuid::new_v4`. -/
structure Sched where
  jobs : List Nat
  next : Nat
deriving DecidableEq

/-- `install` of the three trigger kinds.  A successful cron install
registers a fresh job (`CronScheduler::add` appends) and overwrites the
stored handle; a parse failure returns `InvalidCronExpresion` leaving the
handle untouched.  Immediate and Startup spawn one run (not tracked here)
and succeed. -/
def installTrigger (parse : String → Bool) (tr : Trigger) (s : Sched) :
    Trigger × Sched × Option TaskError :=
  match tr with
  | .cron expr jid =>
    if parse expr then
      (.cron expr (some s.next),
        { jobs := s.jobs ++ [s.next], next := s.next + 1 }, none)
    else
      (.cron expr jid, s, some (.taskSpecError .invalidCronExpresion))
  | .immediate => (.immediate, s, none)
  | .startup => (.startup, s, none)

/-- `uninstall`: a cron trigger takes its handle (leaving `none`) and
removes the job (`Vec::retain` keeps every job with a different id); the
others do nothing. -/
def uninstallTrigger (tr : Trigger) (s : Sched) : Trigger × Sched :=
  match tr with
  | .cron expr (some j) =>
    (.cron expr none, { s with jobs := s.jobs.filter (fun x => x ≠ j) })
  | .cron expr none => (.cron expr none, s)
  | .immediate => (.immediate, s)
  | .startup => (.startup, s)

/-- Whether `install` would succeed for this trigger under `parse`. -/
def trigOk (parse : String → Bool) : Trigger → Bool
  | .cron expr _ => parse expr
  | .immediate => true
  | .startup => true

/-- The loop body of `Task::activate`: install triggers left to right,
recording one `TriggerInstall` event per attempted trigger (the install's
result mapped to `TaskResult{status: Some(0)}` on success), stopping at the
first error; triggers after the first failure are left untouched. -/
def installAll (parse : String → Bool) :
    List Trigger → Sched → List Trigger × Sched × List Event × Option TaskError
  | [], s => ([], s, [], none)
  | tr :: rest, s =>
    match installTrigger parse tr s with
    | (tr', s', some e) =>
      (tr' :: rest, s', [⟨.triggerInstall, .error e⟩], some e)
    | (tr', s', none) =>
      match installAll parse rest s' with
      | (rest', s'', evs, res) =>
        (tr' :: rest', s'', ⟨.triggerInstall, okResult⟩ :: evs, res)

/-- `Task::activate`: a no-op when already Activated; otherwise install all
triggers, and transition to Activated only when every install succeeded. -/
def Task.activate (parse : String → Bool) (t : Task) (s : Sched) :
    Task × Sched × Option TaskError :=
  if t.state = .activated then (t, s, none)
  else
    match installAll parse t.triggers s with
    | (trs, s', evs, some e) =>
      ({ t with triggers := trs, buffer := t.buffer ++ evs }, s', some e)
    | (trs, s', evs, none) =>
      ({ t with
          triggers := trs
          buffer := t.buffer ++ evs
          state := .activated }, s', none)

/-- The loop body of `Task::deactivate`: uninstall every trigger, recording
one `TriggerInstall`-kinded event each (the source reuses that tag). -/
def uninstallAll : List Trigger → Sched → List Trigger × Sched × List Event
  | [], s => ([], s, [])
  | tr :: rest, s =>
    match uninstallTrigger tr s with
    | (tr', s') =>
      match uninstallAll rest s' with
      | (rest', s'', evs) => (tr' :: rest', s'', ⟨.triggerInstall, okResult⟩ :: evs)

/-- `Task::deactivate`: a no-op unless Activated (so handles installed by a
partially failed `activate` are not released). -/
def Task.deactivate (t : Task) (s : Sched) : Task × Sched :=
  if t.state = .activated then
    match uninstallAll t.triggers s with
    | (trs, s', evs) =>
      ({ t with
          triggers := trs
          state := .deactivated
          buffer := t.buffer ++ evs }, s')
  else (t, s)

/-- `Task::try_activate`: activate with the error logged and swallowed. -/
def Task.tryActivate (parse : String → Bool) (t : Task) (s : Sched) :
    Task × Sched :=
  match t.activate parse s with
  | (t', s', _) => (t', s')

/-- `Task::update`.  Both diff checks compare against the spec stored
before the update; the body is rebuilt from the new `TaskType` and the
triggers from the new `TriggerSpec`s; each rebuild branch deactivates
first; the spec is replaced unconditionally and `try_activate` runs. -/
def Task.update (parse : String → Bool) (t : Task) (spec : TaskSpec)
    (s : Sched) : Task × Sched :=
  let r1 :=
    if t.spec.task ≠ spec.task then
      match t.deactivate s with
      | (t', s') => ({ t' with body := spec.task }, s')
    else (t, s)
  let r2 :=
    if t.spec.triggers ≠ spec.triggers then
      match r1.1.deactivate r1.2 with
      | (t', s') => ({ t' with triggers := spec.triggers.map makeTrigger }, s')
    else r1
  Task.tryActivate parse { r2.1 with spec := spec } r2.2

/-- `TaskManager`: the scheduler (with its fresh-id supply) and the task
map as an association list with unique keys — the `HashMap`'s iteration and
removal structure made explicit.  The tick-driver handle (`crond`) is not
modelled: no claim concerns `start_tick`/`stop_tick`. -/
structure Mgr where
  sched : Sched
  tasks : List (Nat × Task)
deriving DecidableEq

/-- `TaskManager::new`. -/
def Mgr.new : Mgr := { sched := { jobs := [], next := 0 }, tasks := [] }

/-- Association-list lookup (`HashMap::get`). -/
def alLookup {β : Type} (id : Nat) : List (Nat × β) → Option β
  | [] => none
  | (k, v) :: rest => if k = id then some v else alLookup id rest

/-- Association-list insert (`HashMap::insert`, or `get_mut` write-back):
replace in place when the key is present, append otherwise. -/
def alInsert {β : Type} (id : Nat) (v : β) : List (Nat × β) → List (Nat × β)
  | [] => [(id, v)]
  | (k, w) :: rest =>
    if k = id then (k, v) :: rest else (k, w) :: alInsert id v rest

/-- Association-list removal (`HashMap::remove`). -/
def alErase {β : Type} (id : Nat) : List (Nat × β) → List (Nat × β)
  | [] => []
  | (k, v) :: rest => if k = id then rest else (k, v) :: alErase id rest

/-- `TaskManager::add_task`: build the task, `try_activate`, insert. -/
def Mgr.addTask (parse : String → Bool) (m : Mgr) (id : Nat)
    (spec : TaskSpec) : Mgr :=
  match Task.tryActivate parse (Task.new spec) m.sched with
  | (t, s') => { sched := s', tasks := alInsert id t m.tasks }

/-- The removal loop of `TaskManager::reload`: each id of `to_remove` is
taken out of the map and the task deactivated.  The second component is
the trace of dropped tasks, in their post-deactivation state. -/
def removeTasks : Mgr → List Nat → Mgr × List (Nat × Task)
  | m, [] => (m, [])
  | m, id :: rest =>
    match alLookup id m.tasks with
    | some t =>
      match t.deactivate m.sched with
      | (t', s') =>
        match removeTasks { sched := s', tasks := alErase id m.tasks } rest with
        | (m', dropped) => (m', (id, t') :: dropped)
    | none => removeTasks m rest

/-- The upsert loop of `TaskManager::reload`: update present entries,
`add_task` absent ones, in spec-list order. -/
def upsertTasks (parse : String → Bool) : Mgr → List (Nat × TaskSpec) → Mgr
  | m, [] => m
  | m, (id, spec) :: rest =>
    match alLookup id m.tasks with
    | some t =>
      match t.update parse spec m.sched with
      | (t', s') =>
        upsertTasks parse { sched := s', tasks := alInsert id t' m.tasks } rest
    | none => upsertTasks parse (m.addTask parse id spec) rest

/-- `TaskManager::reload`: compute `to_remove` (current keys absent from
`specs`), deactivate and drop those, then update-or-add every entry of
`specs`.  The spec map is given as its entry list (the `HashMap` iteration
order made explicit); the second component is the dropped-task trace. -/
def Mgr.reload (parse : String → Bool) (m : Mgr)
    (specs : List (Nat × TaskSpec)) : Mgr × List (Nat × Task) :=
  let toRemove := (m.tasks.map Prod.fst).filter
    (fun id => !((specs.map Prod.fst).contains id))
  match removeTasks m toRemove with
  | (m', dropped) => (upsertTasks parse m' specs, dropped)

/-- A manager operation of the public interface a claim sequence may
perform. -/
inductive MOp where
  | reload (specs : List (Nat × TaskSpec))
  | addTask (id : Nat) (spec : TaskSpec)

/-- Apply one manager operation. -/
def applyOp (parse : String → Bool) (m : Mgr) : MOp → Mgr
  | .reload specs => (m.reload parse specs).1
  | .addTask id spec => m.addTask parse id spec

/-- Run a sequence of manager operations from a state. -/
def runOps (parse : String → Bool) : Mgr → List MOp → Mgr
  | m, [] => m
  | m, op :: rest => runOps parse (applyOp parse m op) rest

/-- The job handles held by a trigger list's cron triggers, in order. -/
def heldJobs (trs : List Trigger) : List Nat :=
  trs.filterMap (fun tr => match tr with
    | .cron _ (some j) => some j
    | _ => none)

/-- The handles held by the Activated tasks' cron triggers — the job
ownership set of the claimed scheduler invariant. -/
def activatedHeld (m : Mgr) : List Nat :=
  (m.tasks.map (fun p =>
    if p.2.state = .activated then heldJobs p.2.triggers else [])).flatten

/-- The handles held by any task's cron triggers, Activated or not. -/
def allHeld (m : Mgr) : List Nat :=
  (m.tasks.map (fun p => heldJobs p.2.triggers)).flatten

/-- The `TriggerSpec` a runtime trigger was built from. -/
def trigSpecOf : Trigger → TriggerSpec
  | .cron expr _ => .cron expr
  | .immediate => .immediate
  | .startup => .startup

/-- A task whose triggers were built from its stored spec's trigger list —
true of `Task::new` and preserved by every task operation. -/
def Task.aligned (t : Task) : Prop :=
  t.triggers.map trigSpecOf = t.spec.triggers

/-- The number of cron triggers in a trigger list (each successful install
registers exactly one job). -/
def cronCount (trs : List Trigger) : Nat :=
  trs.countP (fun tr => match tr with
    | .cron _ _ => true
    | _ => false)

/-- Whether `install` of the trigger built from this `TriggerSpec`
succeeds under `parse`. -/
def trigSpecOk (parse : String → Bool) : TriggerSpec → Bool
  | .cron e => parse e
  | .immediate => true
  | .startup => true

/-- Every trigger of the spec installs successfully under `parse`. -/
def specOk (parse : String → Bool) (sp : TaskSpec) : Bool :=
  sp.triggers.all (trigSpecOk parse)

/-- Side conditions under which the spec's scheduler-ownership invariant is
claimed to be preserved by one operation: every cron expression offered to
the manager parses, and `add_task` is not invoked on an id already in the
map (in the source it is only called from `reload` on absent ids). -/
def opOk (parse : String → Bool) (m : Mgr) : MOp → Prop
  | .reload specs => ∀ p ∈ specs, specOk parse p.2 = true
  | .addTask id sp => alLookup id m.tasks = none ∧ specOk parse sp = true

/-- `opOk` along a whole operation sequence. -/
def opsOk (parse : String → Bool) : Mgr → List MOp → Prop
  | _, [] => True
  | m, op :: rest => opOk parse m op ∧ opsOk parse (applyOp parse m op) rest

/-- The scheduler-ownership invariant of the spec, with the bookkeeping
that makes it inductive: unique task keys, every task Activated and
aligned, job ids unique and below the supply, and the scheduler's job set
equal to the disjoint union of the held handles. -/
def schedInv (m : Mgr) : Prop :=
  (m.tasks.map Prod.fst).Nodup ∧
  (∀ p ∈ m.tasks, p.2.state = .activated ∧ p.2.aligned) ∧
  (∀ j ∈ m.sched.jobs, j < m.sched.next) ∧
  m.sched.jobs.Nodup ∧
  (allHeld m).Nodup ∧
  (∀ j, j ∈ m.sched.jobs ↔ j ∈ allHeld m)

/-! Concrete instances for witnesses and counterexamples.  `parseEx` is the
cron parser's documented behaviour on the two expressions used: the `cron`
crate accepts `"0/1 * * * * *"` (spec scenario S1) and rejects
`"not a cron"` (spec scenario S4). -/

/-- A cron-parse function matching the cron crate on the two expressions
used in the concrete examples. -/
def parseEx : String → Bool := fun e => e == "0/1 * * * * *"

/-- A task spec with one good and one bad cron trigger (in that order). -/
def specEx : TaskSpec :=
  { name := "t"
    task := .hosts ⟨"1.2.3.4", ["foo"]⟩
    on_error := .ignore
    triggers := [.cron "0/1 * * * * *", .cron "not a cron"] }

/-- The one-entry spec map used in the counterexamples. -/
def specsEx : List (Nat × TaskSpec) := [(1, specEx)]

/-- A task spec whose single cron trigger parses. -/
def specGood : TaskSpec :=
  { name := "g"
    task := .command ⟨"echo", ["hi"], "/", false⟩
    on_error := .ignore
    triggers := [.cron "0/1 * * * * *", .immediate] }

end Agent

/-! ## Hosts task (`crates/agent/src/async_job.rs`, `HostTask::run`)

Text is modelled as its character list (`Str := List Char`) so that every
string operation of the source is a structural, kernel-computable
function. -/

namespace Hosts

/-- Text as a character list. -/
abbrev Str := List Char

/-- Rust `char::is_ascii_whitespace`. -/
def isAsciiWs (c : Char) : Bool :=
  c == ' ' || c == '\t' || c == '\n' || c == '\x0c' || c == '\r'

/-- Split at every character satisfying `p`, keeping empty pieces
(the splitting skeleton of Rust's `str::split`). -/
def splitPred (p : Char → Bool) : Str → List Str
  | [] => [[]]
  | c :: rest =>
    match splitPred p rest with
    | h :: t => if p c then [] :: h :: t else (c :: h) :: t
    | [] => if p c then [[], []] else [[c]]

/-- `str::split_ascii_whitespace`: ASCII-whitespace-separated tokens, no
empties. -/
def splitAsciiWs (s : Str) : List Str :=
  (splitPred isAsciiWs s).filter (fun t => t ≠ [])

/-- Strip one trailing `'\r'` (the `lines` carriage-return handling). -/
def stripCr (l : Str) : Str :=
  match l.getLast? with
  | some '\r' => l.dropLast
  | _ => l

/-- `str::lines`: split on `'\n'`, drop the piece after a final `'\n'`,
strip one trailing `'\r'` from each line. -/
def rustLines (s : Str) : List Str :=
  let parts := splitPred (fun c => c == '\n') s
  let parts := match parts.getLast? with
    | some [] => parts.dropLast
    | _ => parts
  parts.map stripCr

/-- `content.contains("\r\n")`. -/
def hasCrlf : Str → Bool
  | '\r' :: '\n' :: _ => true
  | _ :: rest => hasCrlf rest
  | [] => false

/-- The line ending chosen by `HostTask::run`: CRLF when any CRLF occurs in
the content, else LF. -/
def lineEnding (content : Str) : Str :=
  if hasCrlf content then ['\r', '\n'] else ['\n']

/-- `line.trim_start().starts_with(ip)`. -/
def lineMatches (ip : String) (line : Str) : Bool :=
  List.isPrefixOf ip.data (line.dropWhile (fun c => c.isWhitespace))

/-- The rewrite of a matching line: the IP, every existing whitespace token
after the first, then every requested hostname that already occurs among
those tokens, each preceded by one space. -/
def rewriteLine (ip : String) (hosts : List String) (line eol : Str) : Str :=
  let origin := (splitAsciiWs line).drop 1
  let keep := (hosts.map String.data).filter (fun h => origin.contains h)
  ip.data ++ (origin.map (fun h => ' ' :: h)).flatten
          ++ (keep.map (fun h => ' ' :: h)).flatten ++ eol

/-- The `new_content` built by `HostTask::run`: every line rewritten (when
it matches) or kept, re-terminated with the chosen ending, and, when no
line matched, one appended `IP host1 host2 …` entry. -/
def newContent (ip : String) (hosts : List String) (content : Str) : Str :=
  let eol := lineEnding content
  let ls := rustLines content
  let body := (ls.map (fun l =>
    if lineMatches ip l then rewriteLine ip hosts l eol else l ++ eol)).flatten
  if ls.any (lineMatches ip) then body
  else body ++ ip.data ++ (hosts.map (fun h => ' ' :: h.data)).flatten ++ eol

/-- The effect of one `HostTask::run` on the hosts file: the file is opened
read+write (no truncate), read to the end with `read_to_string`, and
`new_content` is then written at the cursor — i.e. appended after the
existing content. -/
def runOnFile (ip : String) (hosts : List String) (file : Str) : Str :=
  file ++ newContent ip hosts file

end Hosts

/-! ## Controller (`crates/server/src/{main,agentdb}.rs`) -/

namespace Server

/-- `agentdb::Agent` (the per-agent config record). -/
structure AgentCfg where
  name : String
  server : String
  key : String
  pull : Bool
  pull_interval : Nat
  report : Bool
  report_interval : Nat
deriving DecidableEq

/-- `agentdb::AgentData`. -/
structure AgentData where
  config : AgentCfg
  tasks : List (Nat × TaskSpec)
deriving DecidableEq

/-- `protocol::Request`. -/
inductive Request where
  | addTask (id : Nat) (spec : TaskSpec)
  | removeTask (id : Nat)
  | listTask
  | reload
  | pullTask (id : Nat)
  | reportStatus (id : Nat) (log : List (Nat × List Event))
deriving DecidableEq

/-- `protocol::Response`. -/
inductive Response where
  | ok
  | error (msg : String)
  | object (bytes : List Nat)
deriving DecidableEq

/-- `Server::handle_request`.  `ser` models the `bincode::serialize` inside
`Response::object`.  The database is only ever read (`agents.read()`): the
returned database is the input, recording the no-mutation fact.
`ReportStatus` appends to log files (outside the database) and answers
`Ok`; every reserved request answers `Error("Unhandled request")`. -/
def handleRequest (ser : List (Nat × TaskSpec) → List Nat)
    (db : List (Nat × AgentData)) :
    Request → Response × List (Nat × AgentData)
  | .pullTask id =>
    match Agent.alLookup id db with
    | some a => (.object (ser a.tasks), db)
    | none => (.error "Agent not found", db)
  | .reportStatus _ _ => (.ok, db)
  | _ => (.error "Unhandled request", db)

end Server

/-! ## Agent pull path (`crates/agent/src/main.rs`) -/

namespace AgentLoop

/-- An externally visible step of `Agent::pull`'s success path. -/
inductive Effect where
  | connect (server : String)
  | sendPullTask (agentId : Nat)
  | writeFile (path : String) (specs : List (Nat × TaskSpec))
  | reloadTasks (specs : List (Nat × TaskSpec))
deriving DecidableEq

/-- The `Agent` fields relevant to the pull path and startup bootstrap. -/
structure AgentFields where
  server : String
  agentId : Nat
  taskFile : String
deriving DecidableEq

/-- `Agent::pull`, success path: connect, send `PullTask{agent_id}`, and
once a `Response::Object` deserialises to a spec map,
`config::dump(&msg, "tasks.json")` — the string literal `"tasks.json"`,
not the configured task file — followed by `reload`. -/
def pullEffects (a : AgentFields) (specs : List (Nat × TaskSpec)) :
    List Effect :=
  [.connect a.server, .sendPullTask a.agentId,
   .writeFile "tasks.json" specs, .reloadTasks specs]

/-- The path `Agent::start` reads for offline bootstrap:
`config::load(self.task_file.as_path())`. -/
def startupReadPath (a : AgentFields) : String := a.taskFile

end AgentLoop

end FileAgent

/-! # Theorems -/

namespace FileAgent

namespace Codec

theorem be32_length (n : Nat) : (be32 n).length = 4 := rfl

theorem be32val_be32 (n : Nat) (h : n < 2 ^ 32) : be32val (be32 n) = n := by
  simp only [be32, be32val]
  omega

end Codec

/-- Claim C1: for every serialisable payload `p` and every key, encoding
with `encode` and then decoding the resulting buffer with `decode` returns
`p`, for every choice of the per-frame random nonce (any 12-byte value) —
so two encodes may produce different byte strings but both decode back to
`p`.  The hypotheses are the round-trip facts of the external stages
(bincode, zlib, AES-256-GCM) on this payload, and the frame-format
constraint that the ciphertext length fits the `u32` LEN field. -/
theorem claim_c1_codec_roundtrip {α : Type} (ser : α → List Nat)
    (deser : List Nat → Option α) (comp : List Nat → List Nat)
    (decomp : List Nat → Option (List Nat))
    (encf : List Nat → List Nat → List Nat → List Nat)
    (decf : List Nat → List Nat → List Nat → Option (List Nat))
    (key nonce : List Nat) (p : α)
    (hnonce : nonce.length = 12)
    (hdeser : deser (ser p) = some p)
    (hdecomp : decomp (comp (ser p)) = some (ser p))
    (hdecf : decf key nonce (encf key nonce (comp (ser p))) =
      some (comp (ser p)))
    (hlen : (encf key nonce (comp (ser p))).length < 2 ^ 32) :
    Codec.decode deser decomp decf key
      (Codec.encode ser comp encf key nonce p []) = (.ok p, []) := by
  have hmod : (encf key nonce (comp (ser p))).length % 2 ^ 32 =
      (encf key nonce (comp (ser p))).length := Nat.mod_eq_of_lt hlen
  set c := encf key nonce (comp (ser p)) with hc
  have hbuf : Codec.encode ser comp encf key nonce p [] =
      (Codec.MAGIC ++ Codec.be32 c.length) ++ (nonce ++ c) := by
    simp only [Codec.encode, ← hc, hmod, List.nil_append, List.append_assoc]
  have hmb : (Codec.MAGIC ++ Codec.be32 c.length).length = 8 := by
    simp [Codec.MAGIC, Codec.be32_length]
  have hL : ((Codec.MAGIC ++ Codec.be32 c.length) ++ (nonce ++ c)).length =
      20 + c.length := by
    simp only [List.length_append, hmb, hnonce]
    omega
  have htake4 : ((Codec.MAGIC ++ Codec.be32 c.length) ++ (nonce ++ c)).take 4 =
      Codec.MAGIC := by
    rw [List.append_assoc,
      List.take_left' (by simp [Codec.MAGIC] : Codec.MAGIC.length = 4)]
  have hdrop4 : ((Codec.MAGIC ++ Codec.be32 c.length) ++ (nonce ++ c)).drop 4 =
      Codec.be32 c.length ++ (nonce ++ c) := by
    rw [List.append_assoc,
      List.drop_left' (by simp [Codec.MAGIC] : Codec.MAGIC.length = 4)]
  have hlenfield : Codec.be32val
      ((((Codec.MAGIC ++ Codec.be32 c.length) ++ (nonce ++ c)).drop 4).take 4) =
      c.length := by
    rw [hdrop4, List.take_left' (Codec.be32_length c.length),
      Codec.be32val_be32 _ hlen]
  have hdrop8 : ((Codec.MAGIC ++ Codec.be32 c.length) ++ (nonce ++ c)).drop 8 =
      nonce ++ c := List.drop_left' hmb
  have hnon : (((Codec.MAGIC ++ Codec.be32 c.length) ++ (nonce ++ c)).drop 8).take 12 =
      nonce := by
    rw [hdrop8, List.take_left' hnonce]
  have hdrop20 : ((Codec.MAGIC ++ Codec.be32 c.length) ++ (nonce ++ c)).drop
      Codec.HEADER_LEN = c := by
    show ((Codec.MAGIC ++ Codec.be32 c.length) ++ (nonce ++ c)).drop (4 + 4 + 12) = c
    rw [← List.append_assoc]
    exact List.drop_left' (by simp [Codec.MAGIC, Codec.be32_length, hnonce])
  rw [hbuf]
  rw [Codec.decode]
  rw [if_neg (by rw [hL]; omega)]
  rw [if_neg (by rw [htake4]; exact fun h => h rfl)]
  rw [if_neg (by rw [hL]; omega)]
  rw [hlenfield, if_neg (by rw [hL]; simp [Codec.HEADER_LEN])]
  rw [hnon, hdrop20, List.take_length, List.drop_length, hdecf]
  simp only [hdecomp, hdeser]

/-- Witness for C1: the round trip evaluated at a concrete payload with
concrete round-tripping stage functions and a concrete nonce. -/
theorem claim_c1_codec_roundtrip_witness :
    Codec.decode (fun l => match l with | [n] => some n | _ => none)
      (fun l => some l) (fun _ _ x => some x) []
      (Codec.encode (fun n : Nat => [n]) id (fun _ _ x => x) []
        (List.replicate 12 0) 5 []) = (.ok 5, []) :=
  claim_c1_codec_roundtrip (fun n : Nat => [n])
    (fun l => match l with | [n] => some n | _ => none) id
    (fun l => some l) (fun _ _ x => x) (fun _ _ x => some x)
    [] (List.replicate 12 0) 5 (by simp) rfl rfl rfl (by norm_num)

/-- Claim C2 (divergence): the claim says a buffer shorter than
`HEADER_LEN + LEN` — down to the empty buffer — makes `decode` return
`NotEnoughData` without consuming.  On the empty buffer the code instead
panics: `&buf[..4]` is an out-of-range slice, evaluated before any length
check.  (`NotEnoughData` is only reachable once 8 bytes are present.) -/
theorem claim_c2_decode_empty_buffer_panics :
    Codec.decode (fun _ => (none : Option Nat)) (fun _ => none)
      (fun _ _ _ => none) [] [] = (.panic, []) ∧
    (Codec.DecodeResult.panic ≠ (.notEnoughData : Codec.DecodeResult Nat)) := by
  exact ⟨rfl, by decide⟩

/-- Claim C8 (divergence): the claim says every successful pull persists
the received spec map to the configured task-file path — the same path
`Agent::start` reads for offline bootstrap — before handing it to
`reload`.  The persist-before-reload ordering holds, but the code calls
`config::dump(&msg, "tasks.json")`: the only file write of the pull path
goes to the fixed relative path `"tasks.json"`, which differs from the
startup read path whenever the configured task file is not literally
`"tasks.json"` (the default is the OS data directory `agent/tasks.json`). -/
theorem claim_c8_pull_cache_path_mismatch :
    (∀ (a : AgentLoop.AgentFields) (specs : List (Nat × TaskSpec)),
      AgentLoop.pullEffects a specs =
        [.connect a.server, .sendPullTask a.agentId,
         .writeFile "tasks.json" specs, .reloadTasks specs]) ∧
    (∀ (a : AgentLoop.AgentFields) (specs : List (Nat × TaskSpec)),
      (AgentLoop.pullEffects a specs).filterMap
        (fun e => match e with
          | AgentLoop.Effect.writeFile p _ => some p
          | _ => none) = ["tasks.json"]) ∧
    AgentLoop.startupReadPath
      ⟨"127.0.0.1:9000", 7, "/var/lib/agent/tasks.json"⟩ ≠ "tasks.json" :=
  ⟨fun _ _ => rfl, fun _ _ => rfl, by decide⟩

/-- Claim C9 (divergence): the claim says running the Hosts task twice
yields a file byte-identical to running it once.  It does not: (a) the
file is opened read+write and `new_content` is written after
`read_to_string` without seeking, so each run appends the rewritten
content instead of replacing the file; (b) the matching-line rewrite
appends the requested hostnames that already appear on the line, so even
the rewrite alone grows a line that already carries a requested host.
Evaluated on the well-formed file `"127.0.0.1 localhost\n"` with
`HostSpec { ip: "1.2.3.4", hosts: ["foo"] }`. -/
theorem claim_c9_hosts_second_run_changes_file :
    (Hosts.runOnFile "1.2.3.4" ["foo"]
        (Hosts.runOnFile "1.2.3.4" ["foo"] "127.0.0.1 localhost\n".data) ≠
      Hosts.runOnFile "1.2.3.4" ["foo"] "127.0.0.1 localhost\n".data) ∧
    Hosts.newContent "1.2.3.4" ["foo"] ("1.2.3.4 foo\n".data) ≠
      "1.2.3.4 foo\n".data := by
  exact ⟨by decide, by decide⟩

/-- Claim C10: a `PullTask` whose agent id is not in the controller's
agent database is answered `Response::Error("Agent not found")` — in
particular neither `Ok` nor `Object` — and the database is unchanged (the
handler only takes a read lock; the returned second component is the
input database). -/
theorem claim_c10_pulltask_unknown_agent
    (ser : List (Nat × TaskSpec) → List Nat)
    (db : List (Nat × Server.AgentData)) (id : Nat)
    (h : Agent.alLookup id db = none) :
    Server.handleRequest ser db (.pullTask id) = (.error "Agent not found", db) := by
  simp [Server.handleRequest, h]

/-- Witness for C10 at the empty database and agent id 0. -/
theorem claim_c10_pulltask_unknown_agent_witness :
    Server.handleRequest (fun _ => []) [] (.pullTask 0) =
      (.error "Agent not found", []) :=
  claim_c10_pulltask_unknown_agent (fun _ => []) [] 0 rfl

namespace Agent

theorem installTrigger_none_trigOk (parse : String → Bool) (tr : Trigger)
    (s : Sched) (h : (installTrigger parse tr s).2.2 = none) :
    trigOk parse tr = true := by
  cases tr with
  | cron e j =>
    cases hp : parse e with
    | false => simp [installTrigger, hp] at h
    | true => simpa [trigOk] using hp
  | immediate => rfl
  | startup => rfl

theorem installAll_none_all_ok (parse : String → Bool) (trs : List Trigger)
    (s : Sched) (h : (installAll parse trs s).2.2.2 = none) :
    ∀ tr ∈ trs, trigOk parse tr = true := by
  induction trs generalizing s with
  | nil => intro tr htr; cases htr
  | cons p ps ih =>
    intro tr htr
    rcases hI : installTrigger parse p s with ⟨p', s', err⟩
    cases err with
    | some e => simp [installAll, hI] at h
    | none =>
      rcases List.mem_cons.mp htr with h1 | h2
      · rw [h1]
        exact installTrigger_none_trigOk parse p s (by rw [hI])
      · refine ih s' ?_ tr h2
        simp only [installAll, hI] at h
        rcases hR : installAll parse ps s' with ⟨a, b, c, d⟩
        rw [hR] at h
        simpa using h

theorem installAll_append_fail (parse : String → Bool) (pre post : List Trigger)
    (e : String) (jid : Option Nat) (s : Sched)
    (hpre : ∀ tr ∈ pre, trigOk parse tr = true) (he : parse e = false) :
    installAll parse (pre ++ .cron e jid :: post) s =
      ((installAll parse pre s).1 ++ .cron e jid :: post,
        (installAll parse pre s).2.1,
        (installAll parse pre s).2.2.1 ++
          [⟨.triggerInstall, .error (.taskSpecError .invalidCronExpresion)⟩],
        some (.taskSpecError .invalidCronExpresion)) := by
  induction pre generalizing s with
  | nil =>
    simp [installAll, installTrigger, he]
  | cons p ps ih =>
    have hp := hpre p (List.mem_cons_self p ps)
    have hps : ∀ tr ∈ ps, trigOk parse tr = true :=
      fun tr htr => hpre tr (List.mem_cons_of_mem p htr)
    cases p with
    | cron e2 j2 =>
      have hp2 : parse e2 = true := hp
      have ihs := ih { jobs := s.jobs ++ [s.next], next := s.next + 1 } hps
      rcases hR : installAll parse ps
          { jobs := s.jobs ++ [s.next], next := s.next + 1 } with ⟨a, b, c, d⟩
      rw [hR] at ihs
      simp only [List.cons_append, installAll, installTrigger, hp2, if_true,
        ihs, hR]
      simp [ihs]
    | immediate =>
      have ihs := ih s hps
      rcases hR : installAll parse ps s with ⟨a, b, c, d⟩
      rw [hR] at ihs
      simp only [List.cons_append, installAll, installTrigger, ihs, hR]
      simp [ihs]
    | startup =>
      have ihs := ih s hps
      rcases hR : installAll parse ps s with ⟨a, b, c, d⟩
      rw [hR] at ihs
      simp only [List.cons_append, installAll, installTrigger, ihs, hR]
      simp [ihs]

end Agent

/-- Claim C5: for a Deactivated task whose trigger list has a first failing
trigger (all earlier triggers install successfully, the failing one is a
cron trigger whose expression does not parse — the only failing install),
`activate` returns that trigger's error `TaskSpecError(InvalidCronExpresion)`,
the state field stays Deactivated, the failing trigger and every later
trigger are left untouched (only the prefix was installed), and the
scheduler is exactly as after installing the prefix alone.  Moreover (last
conjunct) `activate` reaches the Activated state only when the task was
already Activated or every trigger's install succeeds. -/
theorem claim_c5_activate_stops_at_first_failure (parse : String → Bool)
    (t : Agent.Task) (s : Agent.Sched) (pre post : List Agent.Trigger)
    (e : String) (jid : Option Nat)
    (hstate : t.state = .deactivated)
    (htrig : t.triggers = pre ++ .cron e jid :: post)
    (hpre : ∀ tr ∈ pre, Agent.trigOk parse tr = true)
    (he : parse e = false) :
    (t.activate parse s).2.2 = some (.taskSpecError .invalidCronExpresion) ∧
    (t.activate parse s).1.state = .deactivated ∧
    (t.activate parse s).1.triggers =
      (Agent.installAll parse pre s).1 ++ .cron e jid :: post ∧
    (t.activate parse s).2.1 = (Agent.installAll parse pre s).2.1 ∧
    (∀ (u : Agent.Task) (s' : Agent.Sched),
      (u.activate parse s').1.state = .activated →
      u.state = .activated ∨ ∀ tr ∈ u.triggers, Agent.trigOk parse tr = true) := by
  have hact : t.activate parse s =
      ({ t with
          triggers := (Agent.installAll parse pre s).1 ++ .cron e jid :: post
          buffer := t.buffer ++ ((Agent.installAll parse pre s).2.2.1 ++
            [⟨.triggerInstall, .error (.taskSpecError .invalidCronExpresion)⟩]) },
        (Agent.installAll parse pre s).2.1,
        some (.taskSpecError .invalidCronExpresion)) := by
    rw [Agent.Task.activate, if_neg (by rw [hstate]; exact fun h => nomatch h),
      htrig, Agent.installAll_append_fail parse pre post e jid s hpre he]
  refine ⟨by rw [hact], by rw [hact]; exact hstate, by rw [hact], by rw [hact], ?_⟩
  intro u s' hu
  by_cases hu0 : u.state = .activated
  · exact Or.inl hu0
  · refine Or.inr (Agent.installAll_none_all_ok parse u.triggers s' ?_)
    rw [Agent.Task.activate, if_neg hu0] at hu
    rcases hI : Agent.installAll parse u.triggers s' with ⟨trs, s'', evs, err⟩
    rw [hI] at hu
    cases err with
    | some er => exact absurd hu (by simpa using hu0)
    | none => simp [hI]

/-- Witness for C5: the task built from `specEx` (one parsing cron trigger,
then one non-parsing cron trigger) activated on the empty scheduler. -/
theorem claim_c5_activate_stops_at_first_failure_witness :
    ((Agent.Task.new Agent.specEx).activate Agent.parseEx ⟨[], 0⟩).2.2 =
      some (.taskSpecError .invalidCronExpresion) ∧
    ((Agent.Task.new Agent.specEx).activate Agent.parseEx ⟨[], 0⟩).1.state =
      .deactivated := by
  have h := claim_c5_activate_stops_at_first_failure Agent.parseEx
    (Agent.Task.new Agent.specEx) ⟨[], 0⟩
    [.cron "0/1 * * * * *" none] [] "not a cron" none
    rfl rfl (by decide) (by decide)
  exact ⟨h.1, h.2.1⟩

namespace Agent

theorem alLookup_isSome_iff {β : Type} (id : Nat) (l : List (Nat × β)) :
    (alLookup id l).isSome ↔ id ∈ l.map Prod.fst := by
  induction l with
  | nil => simp [alLookup]
  | cons p rest ih =>
    rcases p with ⟨k, v⟩
    by_cases h : k = id
    · subst h; simp [alLookup]
    · simp [alLookup, h, ih, Ne.symm h]

theorem alLookup_eq_none_iff {β : Type} (id : Nat) (l : List (Nat × β)) :
    alLookup id l = none ↔ id ∉ l.map Prod.fst := by
  rw [← alLookup_isSome_iff, Option.not_isSome_iff_eq_none]

theorem alLookup_alInsert_self {β : Type} (id : Nat) (v : β)
    (l : List (Nat × β)) : alLookup id (alInsert id v l) = some v := by
  induction l with
  | nil => simp [alInsert, alLookup]
  | cons p rest ih =>
    rcases p with ⟨k, w⟩
    by_cases h : k = id
    · subst h; simp [alInsert, alLookup]
    · simp [alInsert, alLookup, h, ih]

theorem alLookup_alInsert_ne {β : Type} (id id' : Nat) (v : β)
    (l : List (Nat × β)) (h : id' ≠ id) :
    alLookup id (alInsert id' v l) = alLookup id l := by
  induction l with
  | nil => simp [alInsert, alLookup, h]
  | cons p rest ih =>
    rcases p with ⟨k, w⟩
    by_cases hk : k = id'
    · subst hk; simp [alInsert, alLookup, h]
    · by_cases hki : k = id
      · subst hki; simp [alInsert, alLookup, hk]
      · simp [alInsert, alLookup, hk, hki, ih]

theorem alInsert_self_eq {β : Type} (id : Nat) (v : β) (l : List (Nat × β))
    (h : alLookup id l = some v) : alInsert id v l = l := by
  induction l with
  | nil => simp [alLookup] at h
  | cons p rest ih =>
    rcases p with ⟨k, w⟩
    by_cases hk : k = id
    · subst hk
      have hv : w = v := by simpa [alLookup] using h
      subst hv
      simp [alInsert]
    · simp only [alLookup, if_neg hk] at h
      simp [alInsert, hk, ih h]

theorem alLookup_alErase_ne {β : Type} (id id' : Nat) (l : List (Nat × β))
    (h : id' ≠ id) : alLookup id (alErase id' l) = alLookup id l := by
  induction l with
  | nil => simp [alErase]
  | cons p rest ih =>
    rcases p with ⟨k, w⟩
    by_cases hk : k = id'
    · subst hk; simp [alErase, alLookup, h]
    · simp [alErase, alLookup, hk, ih]

theorem alErase_keys_sublist {β : Type} (id : Nat) (l : List (Nat × β)) :
    ((alErase id l).map Prod.fst).Sublist (l.map Prod.fst) := by
  induction l with
  | nil => simp [alErase]
  | cons p rest ih =>
    rcases p with ⟨k, w⟩
    by_cases hk : k = id
    · subst hk
      simpa [alErase] using (List.sublist_cons_self k (rest.map Prod.fst))
    · simpa [alErase, hk] using ih.cons₂ k

theorem alLookup_alErase_isSome {β : Type} (id id' : Nat)
    (l : List (Nat × β)) (h : (alLookup id (alErase id' l)).isSome) :
    (alLookup id l).isSome := by
  by_cases hk : id' = id
  · subst hk
    rw [alLookup_isSome_iff] at h ⊢
    exact (alErase_keys_sublist id' l).subset h
  · rwa [alLookup_alErase_ne id id' l hk] at h

theorem alErase_nodup {β : Type} (id : Nat) (l : List (Nat × β))
    (h : (l.map Prod.fst).Nodup) : ((alErase id l).map Prod.fst).Nodup :=
  (alErase_keys_sublist id l).nodup h

theorem alLookup_alErase_self {β : Type} (id : Nat) (l : List (Nat × β))
    (h : (l.map Prod.fst).Nodup) : alLookup id (alErase id l) = none := by
  induction l with
  | nil => simp [alErase, alLookup]
  | cons p rest ih =>
    rcases p with ⟨k, w⟩
    have hh : k ∉ rest.map Prod.fst ∧ (rest.map Prod.fst).Nodup := by
      simpa [List.nodup_cons] using h
    by_cases hk : k = id
    · subst hk
      simp only [alErase, if_pos rfl]
      rw [alLookup_eq_none_iff]
      exact hh.1
    · simp only [alErase, if_neg hk, alLookup, if_neg hk]
      exact ih hh.2

theorem alInsert_keys_mem {β : Type} (id : Nat) (v : β) (l : List (Nat × β))
    (h : id ∈ l.map Prod.fst) :
    (alInsert id v l).map Prod.fst = l.map Prod.fst := by
  induction l with
  | nil => simp at h
  | cons p rest ih =>
    rcases p with ⟨k, w⟩
    by_cases hk : k = id
    · subst hk; simp [alInsert]
    · have hr : id ∈ rest.map Prod.fst := by
        rcases (by simpa using h : id = k ∨ id ∈ rest.map Prod.fst) with h1 | h2
        · exact absurd h1.symm hk
        · exact h2
      simp [alInsert, hk, ih hr]

theorem alInsert_keys_not_mem {β : Type} (id : Nat) (v : β)
    (l : List (Nat × β)) (h : id ∉ l.map Prod.fst) :
    (alInsert id v l).map Prod.fst = l.map Prod.fst ++ [id] := by
  induction l with
  | nil => simp [alInsert]
  | cons p rest ih =>
    rcases p with ⟨k, w⟩
    have hk : k ≠ id := fun he => h (by simp [he])
    have hr : id ∉ rest.map Prod.fst := fun hm => h (by simp [hm])
    simp [alInsert, hk, ih hr]

theorem alInsert_nodup {β : Type} (id : Nat) (v : β) (l : List (Nat × β))
    (h : (l.map Prod.fst).Nodup) : ((alInsert id v l).map Prod.fst).Nodup := by
  by_cases hm : id ∈ l.map Prod.fst
  · rwa [alInsert_keys_mem id v l hm]
  · rw [alInsert_keys_not_mem id v l hm]
    refine List.Nodup.append h (List.nodup_singleton id) ?_
    intro x hx hxid
    exact hm ((by simpa using hxid : x = id) ▸ hx)

theorem deactivate_state (t : Task) (s : Sched) :
    (t.deactivate s).1.state = .deactivated := by
  rw [Task.deactivate]
  by_cases h : t.state = .activated
  · rw [if_pos h]
  · rw [if_neg h]
    cases hs : t.state with
    | activated => exact absurd hs h
    | deactivated => rfl

theorem removeTasks_lookup (m : Mgr) (ids : List Nat) (id : Nat)
    (hm : (m.tasks.map Prod.fst).Nodup) :
    alLookup id (removeTasks m ids).1.tasks =
      if id ∈ ids then none else alLookup id m.tasks := by
  induction ids generalizing m with
  | nil => simp [removeTasks]
  | cons i rest ih =>
    rcases hL : alLookup i m.tasks with _ | t
    · simp only [removeTasks, hL]
      rw [ih m hm]
      by_cases hid : id = i
      · subst hid; simp [hL]
      · simp [List.mem_cons, hid]
    · rcases hD : t.deactivate m.sched with ⟨t', s'⟩
      have hm' : ((alErase i m.tasks).map Prod.fst).Nodup :=
        alErase_nodup i m.tasks hm
      rcases hR : removeTasks { sched := s', tasks := alErase i m.tasks } rest
          with ⟨m2, dropped⟩
      have ihm : alLookup id m2.tasks =
          if id ∈ rest then none else alLookup id (alErase i m.tasks) := by
        have h0 := ih { sched := s', tasks := alErase i m.tasks } hm'
        rw [hR] at h0
        exact h0
      simp only [removeTasks, hL, hD, hR]
      show alLookup id m2.tasks = if id ∈ i :: rest then none else alLookup id m.tasks
      rw [ihm]
      by_cases hid : id = i
      · subst hid
        by_cases hr : id ∈ rest
        · simp [hr]
        · simp [hr, alLookup_alErase_self id m.tasks hm]
      · rw [alLookup_alErase_ne id i m.tasks (fun he => hid he.symm)]
        simp [List.mem_cons, hid]

theorem removeTasks_dropped (m : Mgr) (ids : List Nat) :
    ∀ p ∈ (removeTasks m ids).2, p.1 ∈ ids ∧ p.2.state = .deactivated ∧
      (alLookup p.1 m.tasks).isSome := by
  induction ids generalizing m with
  | nil => intro p hp; simp [removeTasks] at hp
  | cons i rest ih =>
    intro p hp
    rcases hL : alLookup i m.tasks with _ | t
    · simp only [removeTasks, hL] at hp
      obtain ⟨h1, h2, h3⟩ := ih m p hp
      exact ⟨List.mem_cons_of_mem i h1, h2, h3⟩
    · rcases hD : t.deactivate m.sched with ⟨t', s'⟩
      rcases hR : removeTasks { sched := s', tasks := alErase i m.tasks } rest
          with ⟨m2, dropped⟩
      simp only [removeTasks, hL, hD, hR] at hp
      rcases List.mem_cons.mp hp with h1 | h2
      · refine ⟨by rw [h1]; exact List.mem_cons_self i rest, ?_, ?_⟩
        · rw [h1]
          have := deactivate_state t m.sched
          rw [hD] at this
          exact this
        · rw [h1]
          simp [hL]
      · have := ih { sched := s', tasks := alErase i m.tasks }
        rw [hR] at this
        obtain ⟨h1, h2, h3⟩ := this p h2
        exact ⟨List.mem_cons_of_mem i h1, h2,
          alLookup_alErase_isSome p.1 i m.tasks h3⟩

theorem removeTasks_covers (m : Mgr) (ids : List Nat) (id : Nat)
    (hid : id ∈ ids) (hsome : (alLookup id m.tasks).isSome) :
    id ∈ (removeTasks m ids).2.map Prod.fst := by
  induction ids generalizing m with
  | nil => cases hid
  | cons i rest ih =>
    rcases hL : alLookup i m.tasks with _ | t
    · simp only [removeTasks, hL]
      rcases List.mem_cons.mp hid with h1 | h2
      · subst h1
        rw [hL] at hsome
        cases hsome
      · exact ih m h2 hsome
    · rcases hD : t.deactivate m.sched with ⟨t', s'⟩
      rcases hR : removeTasks { sched := s', tasks := alErase i m.tasks } rest
          with ⟨m2, dropped⟩
      simp only [removeTasks, hL, hD, hR]
      by_cases hii : id = i
      · subst hii; simp
      · rcases List.mem_cons.mp hid with h1 | h2
        · exact absurd h1 hii
        · have hsome' : (alLookup id (alErase i m.tasks)).isSome := by
            rwa [alLookup_alErase_ne id i m.tasks (fun he => hii he.symm)]
          have hmem := ih { sched := s', tasks := alErase i m.tasks } h2 hsome'
          rw [hR] at hmem
          simpa using Or.inr hmem

theorem upsertTasks_lookup_not_mem (parse : String → Bool) (m : Mgr)
    (specs : List (Nat × TaskSpec)) (id : Nat)
    (h : id ∉ specs.map Prod.fst) :
    alLookup id (upsertTasks parse m specs).tasks = alLookup id m.tasks := by
  induction specs generalizing m with
  | nil => simp [upsertTasks]
  | cons p rest ih =>
    rcases p with ⟨k, sp⟩
    have hk : k ≠ id := fun he => h (by simp [he])
    have hr : id ∉ rest.map Prod.fst := fun hm => h (by simp [hm])
    rcases hL : alLookup k m.tasks with _ | t
    · simp only [upsertTasks, hL]
      rw [ih _ hr]
      show alLookup id (alInsert k _ m.tasks) = alLookup id m.tasks
      exact alLookup_alInsert_ne id k _ m.tasks hk
    · rcases hU : t.update parse sp m.sched with ⟨t', s'⟩
      simp only [upsertTasks, hL, hU]
      rw [ih _ hr]
      exact alLookup_alInsert_ne id k t' m.tasks hk

theorem upsertTasks_lookup_mem (parse : String → Bool) (m : Mgr)
    (specs : List (Nat × TaskSpec)) (id : Nat)
    (h : id ∈ specs.map Prod.fst) :
    (alLookup id (upsertTasks parse m specs).tasks).isSome := by
  induction specs generalizing m with
  | nil => simp at h
  | cons p rest ih =>
    rcases p with ⟨k, sp⟩
    by_cases hr : id ∈ rest.map Prod.fst
    · rcases hL : alLookup k m.tasks with _ | t
      · simp only [upsertTasks, hL]
        exact ih _ hr
      · rcases hU : t.update parse sp m.sched with ⟨t', s'⟩
        simp only [upsertTasks, hL, hU]
        exact ih _ hr
    · have hik : id = k := by
        rcases (by simpa using h : id = k ∨ id ∈ rest.map Prod.fst) with h1 | h2
        · exact h1
        · exact absurd h2 hr
      subst hik
      rcases hL : alLookup id m.tasks with _ | t
      · simp only [upsertTasks, hL]
        rw [upsertTasks_lookup_not_mem parse _ rest id hr]
        show (alLookup id (alInsert id _ m.tasks)).isSome
        rw [alLookup_alInsert_self]
        rfl
      · rcases hU : t.update parse sp m.sched with ⟨t', s'⟩
        simp only [upsertTasks, hL, hU]
        rw [upsertTasks_lookup_not_mem parse _ rest id hr]
        show (alLookup id (alInsert id t' m.tasks)).isSome
        rw [alLookup_alInsert_self]
        rfl

end Agent

/-- Claim C3: after `reload(S)` the key set of the manager's task map equals
the key set of `S` (first conjunct, as lookup-isSome); every task whose id
is in the current map but not in `S` is deactivated and dropped: every
entry of the dropped-task trace is in Deactivated state, came from the
map, has an id outside `S`, and is absent from the resulting map (second
conjunct); and every id of the map outside `S` does appear in the dropped
trace (third conjunct). -/
theorem claim_c3_reload_keys_and_removal (parse : String → Bool)
    (m : Agent.Mgr) (specs : List (Nat × TaskSpec))
    (hT : (m.tasks.map Prod.fst).Nodup) :
    (∀ id : Nat,
      (Agent.alLookup id (m.reload parse specs).1.tasks).isSome ↔
        id ∈ specs.map Prod.fst) ∧
    (∀ p ∈ (m.reload parse specs).2,
      p.2.state = .deactivated ∧ (Agent.alLookup p.1 m.tasks).isSome ∧
      p.1 ∉ specs.map Prod.fst ∧
      Agent.alLookup p.1 (m.reload parse specs).1.tasks = none) ∧
    (∀ id : Nat, (Agent.alLookup id m.tasks).isSome →
      id ∉ specs.map Prod.fst →
      id ∈ (m.reload parse specs).2.map Prod.fst) := by
  have hTRmem : ∀ id : Nat, id ∈ (m.tasks.map Prod.fst).filter
      (fun id => !((specs.map Prod.fst).contains id)) ↔
      (id ∈ m.tasks.map Prod.fst ∧ id ∉ specs.map Prod.fst) := by
    intro id
    simp [List.mem_filter]
  rcases hR : Agent.removeTasks m ((m.tasks.map Prod.fst).filter
      (fun id => !((specs.map Prod.fst).contains id))) with ⟨m1, dropped⟩
  have hreload : m.reload parse specs =
      (Agent.upsertTasks parse m1 specs, dropped) := by
    simp only [Agent.Mgr.reload, hR]
  have hlk : ∀ id : Nat, Agent.alLookup id m1.tasks =
      if id ∈ (m.tasks.map Prod.fst).filter
        (fun id => !((specs.map Prod.fst).contains id)) then none
      else Agent.alLookup id m.tasks := by
    intro id
    have h0 := Agent.removeTasks_lookup m ((m.tasks.map Prod.fst).filter
      (fun id => !((specs.map Prod.fst).contains id))) id hT
    rw [hR] at h0
    exact h0
  have hpart1 : ∀ id : Nat,
      (Agent.alLookup id (m.reload parse specs).1.tasks).isSome ↔
        id ∈ specs.map Prod.fst := by
    intro id
    rw [hreload]
    show (Agent.alLookup id (Agent.upsertTasks parse m1 specs).tasks).isSome ↔ _
    by_cases hm : id ∈ specs.map Prod.fst
    · simp [hm, Agent.upsertTasks_lookup_mem parse m1 specs id hm]
    · rw [Agent.upsertTasks_lookup_not_mem parse m1 specs id hm, hlk id]
      by_cases hmem : id ∈ m.tasks.map Prod.fst
      · have hTR : id ∈ (m.tasks.map Prod.fst).filter
            (fun id => !((specs.map Prod.fst).contains id)) :=
          (hTRmem id).mpr ⟨hmem, hm⟩
        rw [if_pos hTR]
        simp [hm]
      · have h1 : id ∉ (m.tasks.map Prod.fst).filter
            (fun id => !((specs.map Prod.fst).contains id)) :=
          fun hc => hmem ((hTRmem id).mp hc).1
        have h2 : Agent.alLookup id m.tasks = none :=
          (Agent.alLookup_eq_none_iff id m.tasks).mpr hmem
        rw [if_neg h1, h2]
        simp [hm]
  refine ⟨hpart1, ?_, ?_⟩
  · intro p hp
    rw [hreload] at hp
    have hd := Agent.removeTasks_dropped m ((m.tasks.map Prod.fst).filter
      (fun id => !((specs.map Prod.fst).contains id)))
    rw [hR] at hd
    obtain ⟨hin, hst, hsm⟩ := hd p hp
    have hnot := ((hTRmem p.1).mp hin).2
    refine ⟨hst, hsm, hnot, ?_⟩
    rw [← Option.not_isSome_iff_eq_none]
    exact fun hs => hnot ((hpart1 p.1).mp hs)
  · intro id hsome hnot
    have hTR : id ∈ (m.tasks.map Prod.fst).filter
        (fun id => !((specs.map Prod.fst).contains id)) :=
      (hTRmem id).mpr ⟨(Agent.alLookup_isSome_iff id m.tasks).mp hsome, hnot⟩
    have hcov := Agent.removeTasks_covers m _ id hTR hsome
    rw [hR] at hcov
    rw [hreload]
    exact hcov

/-- Witness for C3: a manager holding one task (id 2) reloaded with a spec
map containing only id 1: task 2 lands in the dropped trace. -/
theorem claim_c3_reload_keys_and_removal_witness :
    2 ∈ ((Agent.Mgr.addTask Agent.parseEx Agent.Mgr.new 2 Agent.specGood).reload
      Agent.parseEx Agent.specsEx).2.map Prod.fst := by
  have h := claim_c3_reload_keys_and_removal Agent.parseEx
    (Agent.Mgr.addTask Agent.parseEx Agent.Mgr.new 2 Agent.specGood)
    Agent.specsEx (by decide)
  exact h.2.2 2 (by decide) (by decide)

namespace Agent

theorem trigSpecOf_makeTrigger (ts : TriggerSpec) :
    trigSpecOf (makeTrigger ts) = ts := by
  cases ts <;> rfl

theorem trigOk_eq_trigSpecOk (parse : String → Bool) (tr : Trigger) :
    trigOk parse tr = trigSpecOk parse (trigSpecOf tr) := by
  cases tr <;> rfl

theorem all_trigOk_of_map (parse : String → Bool) (trs : List Trigger)
    (tss : List TriggerSpec) (h : trs.map trigSpecOf = tss)
    (hall : tss.all (trigSpecOk parse) = true) :
    ∀ tr ∈ trs, trigOk parse tr = true := by
  intro tr htr
  have hmem : trigSpecOf tr ∈ tss := h ▸ List.mem_map_of_mem trigSpecOf htr
  rw [trigOk_eq_trigSpecOk]
  exact List.all_eq_true.mp hall _ hmem

theorem installTrigger_trigSpecOf (parse : String → Bool) (tr : Trigger)
    (s : Sched) : trigSpecOf (installTrigger parse tr s).1 = trigSpecOf tr := by
  cases tr with
  | cron e j => by_cases hp : parse e <;> simp [installTrigger, hp, trigSpecOf]
  | immediate => rfl
  | startup => rfl

theorem installAll_trigSpecOf (parse : String → Bool) (trs : List Trigger)
    (s : Sched) :
    (installAll parse trs s).1.map trigSpecOf = trs.map trigSpecOf := by
  induction trs generalizing s with
  | nil => rfl
  | cons p ps ih =>
    rcases hI : installTrigger parse p s with ⟨p', s', err⟩
    have hp : trigSpecOf p' = trigSpecOf p := by
      have := installTrigger_trigSpecOf parse p s
      rwa [hI] at this
    cases err with
    | some e => simp [installAll, hI, hp]
    | none =>
      rcases hR : installAll parse ps s' with ⟨a, b, c, d⟩
      have iha := ih s'
      rw [hR] at iha
      simp [installAll, hI, hR, hp, iha]

theorem uninstallTrigger_trigSpecOf (tr : Trigger) (s : Sched) :
    trigSpecOf (uninstallTrigger tr s).1 = trigSpecOf tr := by
  cases tr with
  | cron e j => cases j <;> rfl
  | immediate => rfl
  | startup => rfl

theorem uninstallAll_trigSpecOf (trs : List Trigger) (s : Sched) :
    (uninstallAll trs s).1.map trigSpecOf = trs.map trigSpecOf := by
  induction trs generalizing s with
  | nil => rfl
  | cons p ps ih =>
    rcases hU : uninstallTrigger p s with ⟨p', s'⟩
    have hp : trigSpecOf p' = trigSpecOf p := by
      have := uninstallTrigger_trigSpecOf p s
      rwa [hU] at this
    rcases hR : uninstallAll ps s' with ⟨a, b, c⟩
    have iha := ih s'
    rw [hR] at iha
    simp [uninstallAll, hU, hR, hp, iha]

theorem installAll_err_none (parse : String → Bool) (trs : List Trigger)
    (s : Sched) (h : ∀ tr ∈ trs, trigOk parse tr = true) :
    (installAll parse trs s).2.2.2 = none := by
  induction trs generalizing s with
  | nil => rfl
  | cons p ps ih =>
    have hp := h p (List.mem_cons_self p ps)
    have hps : ∀ tr ∈ ps, trigOk parse tr = true :=
      fun tr htr => h tr (List.mem_cons_of_mem p htr)
    rcases hI : installTrigger parse p s with ⟨p', s', err⟩
    cases err with
    | some e =>
      exfalso
      cases p with
      | cron e2 j2 =>
        have : parse e2 = true := hp
        simp [installTrigger, this] at hI
      | immediate => simp [installTrigger] at hI
      | startup => simp [installTrigger] at hI
    | none =>
      rcases hR : installAll parse ps s' with ⟨a, b, c, d⟩
      have iha := ih s' hps
      rw [hR] at iha
      simp only [installAll, hI, hR]
      simpa using iha

theorem activate_ok (parse : String → Bool) (t : Task) (s : Sched)
    (hok : ∀ tr ∈ t.triggers, trigOk parse tr = true) :
    (t.activate parse s).1.state = .activated ∧
    (t.activate parse s).1.spec = t.spec ∧
    (t.activate parse s).1.body = t.body ∧
    (t.activate parse s).1.triggers.map trigSpecOf =
      t.triggers.map trigSpecOf := by
  by_cases hact : t.state = .activated
  · rw [Task.activate, if_pos hact]
    exact ⟨hact, rfl, rfl, rfl⟩
  · rw [Task.activate, if_neg hact]
    rcases hI : installAll parse t.triggers s with ⟨trs, s', evs, err⟩
    cases err with
    | some e =>
      exfalso
      have := installAll_err_none parse t.triggers s hok
      rw [hI] at this
      simp at this
    | none =>
      have hmap := installAll_trigSpecOf parse t.triggers s
      rw [hI] at hmap
      exact ⟨rfl, rfl, rfl, hmap⟩

theorem deactivate_fields (t : Task) (s : Sched) :
    (t.deactivate s).1.spec = t.spec ∧ (t.deactivate s).1.body = t.body ∧
    (t.deactivate s).1.triggers.map trigSpecOf =
      t.triggers.map trigSpecOf := by
  rw [Task.deactivate]
  by_cases h : t.state = .activated
  · rw [if_pos h]
    rcases hU : uninstallAll t.triggers s with ⟨trs, s', evs⟩
    have hmap := uninstallAll_trigSpecOf t.triggers s
    rw [hU] at hmap
    exact ⟨rfl, rfl, hmap⟩
  · rw [if_neg h]
    exact ⟨rfl, rfl, rfl⟩

theorem update_ok (parse : String → Bool) (t : Task) (spec : TaskSpec)
    (s : Sched) (hA : t.aligned) (hsp : specOk parse spec = true) :
    (t.update parse spec s).1.spec = spec ∧
    (t.update parse spec s).1.state = .activated ∧
    (t.update parse spec s).1.aligned := by
  rcases hr1 : (if t.spec.task ≠ spec.task then
      match t.deactivate s with
      | (t', s') => ({ t' with body := spec.task }, s')
    else (t, s)) with ⟨t1, s1⟩
  have ht1 : t1.triggers.map trigSpecOf = t.triggers.map trigSpecOf ∧
      t1.spec = t.spec := by
    by_cases hb : t.spec.task ≠ spec.task
    · rw [if_pos hb] at hr1
      rcases hD : t.deactivate s with ⟨t', s'⟩
      rw [hD] at hr1
      obtain ⟨hsp', _, hmap⟩ := deactivate_fields t s
      rw [hD] at hsp' hmap
      cases hr1
      exact ⟨hmap, hsp'⟩
    · rw [if_neg hb] at hr1
      cases hr1
      exact ⟨rfl, rfl⟩
  rcases hr2 : (if t.spec.triggers ≠ spec.triggers then
      match t1.deactivate s1 with
      | (t', s') => ({ t' with triggers := spec.triggers.map makeTrigger }, s')
    else (t1, s1)) with ⟨t2, s2⟩
  have ht2 : t2.triggers.map trigSpecOf = spec.triggers := by
    by_cases hgg : t.spec.triggers ≠ spec.triggers
    · rw [if_pos hgg] at hr2
      rcases hD : t1.deactivate s1 with ⟨t', s'⟩
      rw [hD] at hr2
      cases hr2
      show (spec.triggers.map makeTrigger).map trigSpecOf = spec.triggers
      rw [List.map_map]
      have hco : trigSpecOf ∘ makeTrigger = id := funext trigSpecOf_makeTrigger
      rw [hco, List.map_id]
    · rw [if_neg hgg] at hr2
      cases hr2
      have hA2 : t.triggers.map trigSpecOf = t.spec.triggers := hA
      rw [ht1.1, hA2]
      exact not_not.mp hgg
  have hgoal : t.update parse spec s =
      Task.tryActivate parse { t2 with spec := spec } s2 := by
    simp only [Task.update]
    rw [hr1]
    dsimp only
    rw [hr2]
  rw [hgoal, Task.tryActivate]
  rcases hACT : Task.activate parse { t2 with spec := spec } s2
      with ⟨ta, sa, ra⟩
  have hok : ∀ tr ∈ ({ t2 with spec := spec } : Task).triggers,
      trigOk parse tr = true :=
    all_trigOk_of_map parse t2.triggers spec.triggers ht2 hsp
  obtain ⟨h1, h2, h3, h4⟩ := activate_ok parse { t2 with spec := spec } s2 hok
  rw [hACT] at h1 h2 h4
  refine ⟨by rw [h2], h1, ?_⟩
  show ta.triggers.map trigSpecOf = ta.spec.triggers
  rw [h4, h2]
  exact ht2

theorem update_noop (parse : String → Bool) (t : Task) (spec : TaskSpec)
    (s : Sched) (h1 : t.spec = spec) (h2 : t.state = .activated) :
    t.update parse spec s = (t, s) := by
  subst h1
  have hne1 : ¬(t.spec.task ≠ t.spec.task) := fun hc => hc rfl
  have hne2 : ¬(t.spec.triggers ≠ t.spec.triggers) := fun hc => hc rfl
  have hgoal : t.update parse t.spec s = Task.tryActivate parse t s := by
    simp only [Task.update]
    rw [if_neg hne1]
    dsimp only
    rw [if_neg hne2]
  rw [hgoal, Task.tryActivate, Task.activate, if_pos h2]

theorem alErase_sublist {β : Type} (id : Nat) (l : List (Nat × β)) :
    (alErase id l).Sublist l := by
  induction l with
  | nil => simp [alErase]
  | cons p rest ih =>
    rcases p with ⟨k, w⟩
    by_cases hk : k = id
    · subst hk
      simpa [alErase] using List.sublist_cons_self (k, w) rest
    · simpa [alErase, hk] using ih.cons₂ (k, w)

theorem removeTasks_tasks_sublist (m : Mgr) (ids : List Nat) :
    (removeTasks m ids).1.tasks.Sublist m.tasks := by
  induction ids generalizing m with
  | nil => simp [removeTasks]
  | cons i rest ih =>
    rcases hL : alLookup i m.tasks with _ | t
    · simp only [removeTasks, hL]
      exact ih m
    · rcases hD : t.deactivate m.sched with ⟨t', s'⟩
      rcases hR : removeTasks { sched := s', tasks := alErase i m.tasks } rest
          with ⟨m2, dropped⟩
      simp only [removeTasks, hL, hD, hR]
      have h1 := ih { sched := s', tasks := alErase i m.tasks }
      rw [hR] at h1
      exact h1.trans (alErase_sublist i m.tasks)

theorem alLookup_mem {β : Type} (id : Nat) (v : β) (l : List (Nat × β))
    (h : alLookup id l = some v) : (id, v) ∈ l := by
  induction l with
  | nil => simp [alLookup] at h
  | cons p rest ih =>
    rcases p with ⟨k, w⟩
    by_cases hk : k = id
    · subst hk
      have : w = v := by simpa [alLookup] using h
      subst this
      exact List.mem_cons_self _ _
    · simp only [alLookup, if_neg hk] at h
      exact List.mem_cons_of_mem _ (ih h)

theorem alInsert_mem {β : Type} (id : Nat) (v : β) (l : List (Nat × β))
    (p : Nat × β) (h : p ∈ alInsert id v l) : p = (id, v) ∨ p ∈ l := by
  induction l with
  | nil => simpa [alInsert] using h
  | cons q rest ih =>
    rcases q with ⟨k, w⟩
    by_cases hk : k = id
    · subst hk
      rcases List.mem_cons.mp (by simpa [alInsert] using h) with h1 | h2
      · exact Or.inl (by rw [h1])
      · exact Or.inr (List.mem_cons_of_mem _ h2)
    · simp only [alInsert, if_neg hk] at h
      rcases List.mem_cons.mp h with h1 | h2
      · exact Or.inr (by rw [h1]; exact List.mem_cons_self _ _)
      · rcases ih h2 with h3 | h4
        · exact Or.inl h3
        · exact Or.inr (List.mem_cons_of_mem _ h4)

theorem upsertTasks_nodup (parse : String → Bool) (m : Mgr)
    (specs : List (Nat × TaskSpec)) (h : (m.tasks.map Prod.fst).Nodup) :
    ((upsertTasks parse m specs).tasks.map Prod.fst).Nodup := by
  induction specs generalizing m with
  | nil => simpa [upsertTasks] using h
  | cons p rest ih =>
    rcases p with ⟨k, sp⟩
    rcases hL : alLookup k m.tasks with _ | t
    · simp only [upsertTasks, hL]
      exact ih _ (alInsert_nodup k _ m.tasks h)
    · rcases hU : t.update parse sp m.sched with ⟨t', s'⟩
      simp only [upsertTasks, hL, hU]
      exact ih _ (alInsert_nodup k t' m.tasks h)

theorem reload_nodup (parse : String → Bool) (m : Mgr)
    (specs : List (Nat × TaskSpec)) (hT : (m.tasks.map Prod.fst).Nodup) :
    (((m.reload parse specs).1.tasks).map Prod.fst).Nodup := by
  rcases hR : removeTasks m ((m.tasks.map Prod.fst).filter
      (fun id => !((specs.map Prod.fst).contains id))) with ⟨m1, dropped⟩
  have h1 : (m1.tasks.map Prod.fst).Nodup := by
    have := removeTasks_tasks_sublist m ((m.tasks.map Prod.fst).filter
      (fun id => !((specs.map Prod.fst).contains id)))
    rw [hR] at this
    exact ((this.map Prod.fst).nodup hT)
  simp only [Mgr.reload, hR]
  exact upsertTasks_nodup parse m1 specs h1

theorem reload_lookup_isSome_iff (parse : String → Bool) (m : Mgr)
    (specs : List (Nat × TaskSpec)) (id : Nat)
    (hT : (m.tasks.map Prod.fst).Nodup) :
    (alLookup id (m.reload parse specs).1.tasks).isSome ↔
      id ∈ specs.map Prod.fst := by
  rcases hR : removeTasks m ((m.tasks.map Prod.fst).filter
      (fun id => !((specs.map Prod.fst).contains id))) with ⟨m1, dropped⟩
  have hlk : alLookup id m1.tasks =
      if id ∈ (m.tasks.map Prod.fst).filter
        (fun id => !((specs.map Prod.fst).contains id)) then none
      else alLookup id m.tasks := by
    have h0 := removeTasks_lookup m ((m.tasks.map Prod.fst).filter
      (fun id => !((specs.map Prod.fst).contains id))) id hT
    rw [hR] at h0
    exact h0
  simp only [Mgr.reload, hR]
  show (alLookup id (upsertTasks parse m1 specs).tasks).isSome ↔ _
  by_cases hm : id ∈ specs.map Prod.fst
  · simp [hm, upsertTasks_lookup_mem parse m1 specs id hm]
  · rw [upsertTasks_lookup_not_mem parse m1 specs id hm, hlk]
    by_cases hmem : id ∈ m.tasks.map Prod.fst
    · rw [if_pos (by simp [List.mem_filter, hmem, hm])]
      simp [hm]
    · rw [if_neg (by simp [List.mem_filter, hmem]),
        (alLookup_eq_none_iff id m.tasks).mpr hmem]
      simp [hm]

theorem newTask_mapSpec (sp : TaskSpec) :
    (Task.new sp).triggers.map trigSpecOf = sp.triggers := by
  show (sp.triggers.map makeTrigger).map trigSpecOf = sp.triggers
  have hco : trigSpecOf ∘ makeTrigger = id := funext trigSpecOf_makeTrigger
  rw [List.map_map, hco, List.map_id]

theorem newTask_ok (parse : String → Bool) (sp : TaskSpec) (s : Sched)
    (hsp : specOk parse sp = true) :
    (Task.tryActivate parse (Task.new sp) s).1.spec = sp ∧
    (Task.tryActivate parse (Task.new sp) s).1.state = .activated ∧
    (Task.tryActivate parse (Task.new sp) s).1.aligned := by
  have hok : ∀ tr ∈ (Task.new sp).triggers, trigOk parse tr = true :=
    all_trigOk_of_map parse _ sp.triggers (newTask_mapSpec sp) hsp
  obtain ⟨h1, h2, h3, h4⟩ := activate_ok parse (Task.new sp) s hok
  rcases hACT : (Task.new sp).activate parse s with ⟨ta, sa, ra⟩
  rw [hACT] at h1 h2 h4
  have he : Task.tryActivate parse (Task.new sp) s = (ta, sa) := by
    rw [Task.tryActivate, hACT]
  rw [he]
  refine ⟨by rw [h2]; rfl, h1, ?_⟩
  show ta.triggers.map trigSpecOf = ta.spec.triggers
  rw [h4, h2, newTask_mapSpec sp]
  rfl

theorem upsertTasks_entry (parse : String → Bool) (m : Mgr)
    (specs : List (Nat × TaskSpec))
    (hA : ∀ p ∈ m.tasks, p.2.aligned)
    (hS : (specs.map Prod.fst).Nodup)
    (hparse : ∀ p ∈ specs, specOk parse p.2 = true) :
    ∀ q ∈ specs, ∃ t : Task,
      alLookup q.1 (upsertTasks parse m specs).tasks = some t ∧
      t.spec = q.2 ∧ t.state = .activated := by
  induction specs generalizing m with
  | nil => intro q hq; cases hq
  | cons p rest ih =>
    rcases p with ⟨k, sp⟩
    have hnd : k ∉ rest.map Prod.fst ∧ (rest.map Prod.fst).Nodup := by
      simpa [List.nodup_cons] using hS
    have hspk : specOk parse sp = true := hparse (k, sp) (List.mem_cons_self _ _)
    have hparser : ∀ p ∈ rest, specOk parse p.2 = true :=
      fun p hp => hparse p (List.mem_cons_of_mem _ hp)
    rcases hL : alLookup k m.tasks with _ | t
    · -- absent: add_task
      rcases hN : Task.tryActivate parse (Task.new sp) m.sched with ⟨t', s'⟩
      obtain ⟨hp1, hp2, hp3⟩ := newTask_ok parse sp m.sched hspk
      rw [hN] at hp1 hp2 hp3
      have hstep : upsertTasks parse m ((k, sp) :: rest) =
          upsertTasks parse
            { sched := s', tasks := alInsert k t' m.tasks } rest := by
        simp only [upsertTasks, hL, Mgr.addTask, hN]
      have hA' : ∀ p ∈ (alInsert k t' m.tasks), p.2.aligned := by
        intro p hp
        rcases alInsert_mem k t' m.tasks p hp with h1 | h2
        · rw [h1]; exact hp3
        · exact hA p h2
      intro q hq
      rcases List.mem_cons.mp hq with h1 | h2
      · rw [h1, hstep]
        refine ⟨t', ?_, hp1, hp2⟩
        rw [upsertTasks_lookup_not_mem parse _ rest k hnd.1]
        exact alLookup_alInsert_self k t' m.tasks
      · rw [hstep]
        exact ih { sched := s', tasks := alInsert k t' m.tasks } hA' hnd.2
          hparser q h2
    · -- present: update
      rcases hU : t.update parse sp m.sched with ⟨t', s'⟩
      have htal : t.aligned := hA (k, t) (alLookup_mem k t m.tasks hL)
      obtain ⟨hp1, hp2, hp3⟩ := update_ok parse t sp m.sched htal hspk
      rw [hU] at hp1 hp2 hp3
      have hstep : upsertTasks parse m ((k, sp) :: rest) =
          upsertTasks parse
            { sched := s', tasks := alInsert k t' m.tasks } rest := by
        simp only [upsertTasks, hL, hU]
      have hA' : ∀ p ∈ (alInsert k t' m.tasks), p.2.aligned := by
        intro p hp
        rcases alInsert_mem k t' m.tasks p hp with h1 | h2
        · rw [h1]; exact hp3
        · exact hA p h2
      intro q hq
      rcases List.mem_cons.mp hq with h1 | h2
      · rw [h1, hstep]
        refine ⟨t', ?_, hp1, hp2⟩
        rw [upsertTasks_lookup_not_mem parse _ rest k hnd.1]
        exact alLookup_alInsert_self k t' m.tasks
      · rw [hstep]
        exact ih { sched := s', tasks := alInsert k t' m.tasks } hA' hnd.2
          hparser q h2

theorem reload_entry (parse : String → Bool) (m : Mgr)
    (specs : List (Nat × TaskSpec))
    (hA : ∀ p ∈ m.tasks, p.2.aligned)
    (hS : (specs.map Prod.fst).Nodup)
    (hparse : ∀ p ∈ specs, specOk parse p.2 = true) :
    ∀ q ∈ specs, ∃ t : Task,
      alLookup q.1 (m.reload parse specs).1.tasks = some t ∧
      t.spec = q.2 ∧ t.state = .activated := by
  rcases hR : removeTasks m ((m.tasks.map Prod.fst).filter
      (fun id => !((specs.map Prod.fst).contains id))) with ⟨m1, dropped⟩
  have hA1 : ∀ p ∈ m1.tasks, p.2.aligned := by
    intro p hp
    have hsub := removeTasks_tasks_sublist m ((m.tasks.map Prod.fst).filter
      (fun id => !((specs.map Prod.fst).contains id)))
    rw [hR] at hsub
    exact hA p (hsub.subset hp)
  simp only [Mgr.reload, hR]
  exact upsertTasks_entry parse m1 specs hA1 hS hparse

theorem upsertTasks_noop (parse : String → Bool) (m : Mgr)
    (specs : List (Nat × TaskSpec))
    (hfix : ∀ q ∈ specs, ∃ t : Task, alLookup q.1 m.tasks = some t ∧
      t.spec = q.2 ∧ t.state = .activated) :
    upsertTasks parse m specs = m := by
  induction specs generalizing m with
  | nil => rfl
  | cons p rest ih =>
    rcases p with ⟨k, sp⟩
    obtain ⟨t, hl, hsp, hst⟩ := hfix (k, sp) (List.mem_cons_self _ _)
    have hstep : upsertTasks parse m ((k, sp) :: rest) =
        upsertTasks parse m rest := by
      simp only [upsertTasks, hl, update_noop parse t sp m.sched hsp hst]
      rw [alInsert_self_eq k t m.tasks hl]
    rw [hstep]
    exact ih m (fun q hq => hfix q (List.mem_cons_of_mem _ hq))

end Agent

/-- Claim C4 counterexample: reloading the same one-entry spec map twice
from the empty manager is not idempotent.  The spec's task has triggers
`[Cron "0/1 * * * * *", Cron "not a cron"]` under a parse function
matching the cron crate's documented behaviour on these two expressions;
the first reload installs the good trigger (one scheduler job) and fails
on the bad one, leaving the task Deactivated; the second reload's
`try_activate` re-installs the good trigger, so the scheduler job count
grows from 1 to 2 — the claim says the second reload adds no jobs. -/
theorem claim_c4_counterexample :
    (Agent.Mgr.reload Agent.parseEx
        (Agent.Mgr.reload Agent.parseEx Agent.Mgr.new Agent.specsEx).1
        Agent.specsEx).1.sched.jobs.length ≠
      (Agent.Mgr.reload Agent.parseEx Agent.Mgr.new
        Agent.specsEx).1.sched.jobs.length := by
  decide

/-- Claim C4, amended: when every cron expression of every spec in `S`
parses (and `S` has unique ids, and the manager's task map is well-formed:
unique ids and each task's triggers built from its stored spec — true of
every reachable state), `reload(S); reload(S)` leaves the entire manager
state — task map and scheduler, hence also the scheduler job count —
identical to after the first `reload(S)`.  Without the parse condition
the second reload re-installs the already-installed triggers of a task
left Deactivated by its failing trigger, adding scheduler jobs. -/
theorem claim_c4_reload_idempotent (parse : String → Bool) (m : Agent.Mgr)
    (specs : List (Nat × TaskSpec))
    (hT : (m.tasks.map Prod.fst).Nodup)
    (hA : ∀ p ∈ m.tasks, p.2.aligned)
    (hS : (specs.map Prod.fst).Nodup)
    (hparse : ∀ p ∈ specs, Agent.specOk parse p.2 = true) :
    (Agent.Mgr.reload parse (Agent.Mgr.reload parse m specs).1 specs).1 =
      (Agent.Mgr.reload parse m specs).1 := by
  have hnodup1 : (((Agent.Mgr.reload parse m specs).1.tasks).map Prod.fst).Nodup :=
    Agent.reload_nodup parse m specs hT
  have hentry := Agent.reload_entry parse m specs hA hS hparse
  have hkeys : ∀ id ∈ ((Agent.Mgr.reload parse m specs).1.tasks).map Prod.fst,
      id ∈ specs.map Prod.fst := by
    intro id hid
    exact (Agent.reload_lookup_isSome_iff parse m specs id hT).mp
      ((Agent.alLookup_isSome_iff id _).mpr hid)
  have hTR : (((Agent.Mgr.reload parse m specs).1.tasks).map Prod.fst).filter
      (fun id => !((specs.map Prod.fst).contains id)) = [] := by
    rw [List.filter_eq_nil_iff]
    intro id hid
    simp [hkeys id hid]
  show (Agent.Mgr.reload parse (Agent.Mgr.reload parse m specs).1 specs).1 = _
  rw [Agent.Mgr.reload]
  simp only [hTR, Agent.removeTasks]
  exact Agent.upsertTasks_noop parse (Agent.Mgr.reload parse m specs).1 specs hentry

/-- Witness for the amended C4 at a concrete manager and spec map. -/
theorem claim_c4_reload_idempotent_witness :
    (Agent.Mgr.reload Agent.parseEx
        (Agent.Mgr.reload Agent.parseEx Agent.Mgr.new [(1, Agent.specGood)]).1
        [(1, Agent.specGood)]).1 =
      (Agent.Mgr.reload Agent.parseEx Agent.Mgr.new [(1, Agent.specGood)]).1 :=
  claim_c4_reload_idempotent Agent.parseEx Agent.Mgr.new [(1, Agent.specGood)]
    (by decide) (by intro p hp; cases hp) (by decide) (by decide)

/-- Claim C6 counterexample: one `reload` with a task whose trigger list is
`[Cron "0/1 * * * * *", Cron "not a cron"]` reaches a state in which the
scheduler holds job 0 (installed for the good trigger before the bad one
failed) while no task is Activated, so job 0 is not owned by any Activated
task's CronTrigger — the claimed invariant fails in a reachable state. -/
theorem claim_c6_counterexample :
    0 ∈ (Agent.runOps Agent.parseEx Agent.Mgr.new
        [.reload Agent.specsEx]).sched.jobs ∧
    0 ∉ Agent.activatedHeld
      (Agent.runOps Agent.parseEx Agent.Mgr.new [.reload Agent.specsEx]) := by
  decide

namespace Agent

theorem heldJobs_cons_cron_some (e : String) (j : Nat) (trs : List Trigger) :
    heldJobs (.cron e (some j) :: trs) = j :: heldJobs trs := rfl

theorem heldJobs_cons_cron_none (e : String) (trs : List Trigger) :
    heldJobs (.cron e none :: trs) = heldJobs trs := rfl

theorem heldJobs_makeTriggers (tss : List TriggerSpec) :
    heldJobs (tss.map makeTrigger) = [] := by
  induction tss with
  | nil => rfl
  | cons ts rest ih =>
    cases ts <;> simpa [makeTrigger, heldJobs, List.filterMap_cons] using ih

theorem uninstallAll_spec (trs : List Trigger) (s : Sched) :
    heldJobs (uninstallAll trs s).1 = [] ∧
    (uninstallAll trs s).2.1.jobs.Sublist s.jobs ∧
    (∀ j : Nat, j ∈ (uninstallAll trs s).2.1.jobs ↔
      (j ∈ s.jobs ∧ j ∉ heldJobs trs)) ∧
    (uninstallAll trs s).2.1.next = s.next := by
  induction trs generalizing s with
  | nil =>
    refine ⟨rfl, List.Sublist.refl _, fun j => ?_, rfl⟩
    simp [uninstallAll, heldJobs]
  | cons tr rest ih =>
    cases tr with
    | cron e jid =>
      cases jid with
      | some j =>
        rcases hR : uninstallAll rest
            { s with jobs := s.jobs.filter (fun x => x ≠ j) } with ⟨trs', s2, evs⟩
        have ihs := ih { s with jobs := s.jobs.filter (fun x => x ≠ j) }
        rw [hR] at ihs
        obtain ⟨ih1, ih2, ih3, ih4⟩ := ihs
        simp only [uninstallAll, uninstallTrigger, hR]
        refine ⟨by simpa [heldJobs, List.filterMap_cons] using ih1,
          ih2.trans (List.filter_sublist s.jobs), ?_, ih4⟩
        intro x
        rw [ih3 x]
        simp only [List.mem_filter, heldJobs_cons_cron_some, List.mem_cons,
          decide_eq_true_eq]
        tauto
      | none =>
        rcases hR : uninstallAll rest s with ⟨trs', s2, evs⟩
        have ihs := ih s
        rw [hR] at ihs
        obtain ⟨ih1, ih2, ih3, ih4⟩ := ihs
        simp only [uninstallAll, uninstallTrigger, hR]
        refine ⟨by simpa [heldJobs, List.filterMap_cons] using ih1, ih2, ?_, ih4⟩
        intro x
        rw [ih3 x, heldJobs_cons_cron_none]
    | immediate =>
      rcases hR : uninstallAll rest s with ⟨trs', s2, evs⟩
      have ihs := ih s
      rw [hR] at ihs
      obtain ⟨ih1, ih2, ih3, ih4⟩ := ihs
      simp only [uninstallAll, uninstallTrigger, hR]
      refine ⟨by simpa [heldJobs, List.filterMap_cons] using ih1, ih2, ?_, ih4⟩
      intro x
      rw [ih3 x]
      simp [heldJobs, List.filterMap_cons]
    | startup =>
      rcases hR : uninstallAll rest s with ⟨trs', s2, evs⟩
      have ihs := ih s
      rw [hR] at ihs
      obtain ⟨ih1, ih2, ih3, ih4⟩ := ihs
      simp only [uninstallAll, uninstallTrigger, hR]
      refine ⟨by simpa [heldJobs, List.filterMap_cons] using ih1, ih2, ?_, ih4⟩
      intro x
      rw [ih3 x]
      simp [heldJobs, List.filterMap_cons]

theorem installAll_ok_spec (parse : String → Bool) (trs : List Trigger)
    (s : Sched) (h1 : ∀ tr ∈ trs, trigOk parse tr = true)
    (h2 : heldJobs trs = []) :
    (installAll parse trs s).2.2.2 = none ∧
    heldJobs (installAll parse trs s).1 =
      List.range' s.next (cronCount trs) ∧
    (installAll parse trs s).2.1.jobs =
      s.jobs ++ List.range' s.next (cronCount trs) ∧
    (installAll parse trs s).2.1.next = s.next + cronCount trs := by
  induction trs generalizing s with
  | nil =>
    exact ⟨rfl, rfl, by simp [installAll, cronCount], rfl⟩
  | cons tr rest ih =>
    have hok : trigOk parse tr = true := h1 tr (List.mem_cons_self _ _)
    have h1r : ∀ tr ∈ rest, trigOk parse tr = true :=
      fun tr htr => h1 tr (List.mem_cons_of_mem _ htr)
    cases tr with
    | cron e jid =>
      cases jid with
      | some j => simp [heldJobs_cons_cron_some] at h2
      | none =>
        have hp : parse e = true := hok
        have h2r : heldJobs rest = [] := by
          simpa [heldJobs_cons_cron_none] using h2
        rcases hR : installAll parse rest
            { jobs := s.jobs ++ [s.next], next := s.next + 1 } with ⟨a, b, c, d⟩
        have ihs := ih { jobs := s.jobs ++ [s.next], next := s.next + 1 } h1r h2r
        rw [hR] at ihs
        obtain ⟨ih1, ih2, ih3, ih4⟩ := ihs
        simp only [installAll, installTrigger, hp, if_true, hR]
        have hcc : cronCount (Trigger.cron e none :: rest) = cronCount rest + 1 := by
          simp [cronCount, List.countP_cons]
        refine ⟨by simpa using ih1, ?_, ?_, ?_⟩
        · show heldJobs (Trigger.cron e (some s.next) :: a) = _
          rw [heldJobs_cons_cron_some, ih2, hcc]
          rfl
        · show b.jobs = s.jobs ++ List.range' s.next (cronCount (Trigger.cron e none :: rest))
          rw [ih3, hcc]
          show (s.jobs ++ [s.next]) ++ List.range' (s.next + 1) (cronCount rest) =
            s.jobs ++ List.range' s.next (cronCount rest + 1)
          rw [List.append_assoc]
          rfl
        · show b.next = s.next + cronCount (Trigger.cron e none :: rest)
          rw [ih4, hcc]
          show s.next + 1 + cronCount rest = s.next + (cronCount rest + 1)
          omega
    | immediate =>
      have h2r : heldJobs rest = [] := by simpa [heldJobs] using h2
      rcases hR : installAll parse rest s with ⟨a, b, c, d⟩
      have ihs := ih s h1r h2r
      rw [hR] at ihs
      obtain ⟨ih1, ih2, ih3, ih4⟩ := ihs
      simp only [installAll, installTrigger, hR]
      have hcc : cronCount (Trigger.immediate :: rest) = cronCount rest := by
        simp [cronCount, List.countP_cons]
      refine ⟨by simpa using ih1, ?_, ?_, ?_⟩
      · show heldJobs (Trigger.immediate :: a) = _
        rw [hcc, ← ih2]
        rfl
      · rw [hcc]; exact ih3
      · rw [hcc]; exact ih4
    | startup =>
      have h2r : heldJobs rest = [] := by simpa [heldJobs] using h2
      rcases hR : installAll parse rest s with ⟨a, b, c, d⟩
      have ihs := ih s h1r h2r
      rw [hR] at ihs
      obtain ⟨ih1, ih2, ih3, ih4⟩ := ihs
      simp only [installAll, installTrigger, hR]
      have hcc : cronCount (Trigger.startup :: rest) = cronCount rest := by
        simp [cronCount, List.countP_cons]
      refine ⟨by simpa using ih1, ?_, ?_, ?_⟩
      · show heldJobs (Trigger.startup :: a) = _
        rw [hcc, ← ih2]
        rfl
      · rw [hcc]; exact ih3
      · rw [hcc]; exact ih4

theorem deactivate_spec (t : Task) (s : Sched) (hact : t.state = .activated) :
    (t.deactivate s).1.state = .deactivated ∧
    heldJobs (t.deactivate s).1.triggers = [] ∧
    (t.deactivate s).1.spec = t.spec ∧
    (t.deactivate s).1.triggers.map trigSpecOf = t.triggers.map trigSpecOf ∧
    (t.deactivate s).2.jobs.Sublist s.jobs ∧
    (∀ j : Nat, j ∈ (t.deactivate s).2.jobs ↔
      (j ∈ s.jobs ∧ j ∉ heldJobs t.triggers)) ∧
    (t.deactivate s).2.next = s.next := by
  rw [Task.deactivate, if_pos hact]
  rcases hU : uninstallAll t.triggers s with ⟨trs', s2, evs⟩
  have hspec := uninstallAll_spec t.triggers s
  rw [hU] at hspec
  obtain ⟨h1, h2, h3, h4⟩ := hspec
  have hmap := uninstallAll_trigSpecOf t.triggers s
  rw [hU] at hmap
  exact ⟨rfl, h1, rfl, hmap, h2, h3, h4⟩

theorem tryActivate_fresh_spec (parse : String → Bool) (t : Task) (s : Sched)
    (hst : t.state = .deactivated)
    (hok : ∀ tr ∈ t.triggers, trigOk parse tr = true)
    (hheld : heldJobs t.triggers = []) :
    (Task.tryActivate parse t s).1.state = .activated ∧
    (Task.tryActivate parse t s).1.spec = t.spec ∧
    (Task.tryActivate parse t s).1.triggers.map trigSpecOf =
      t.triggers.map trigSpecOf ∧
    heldJobs (Task.tryActivate parse t s).1.triggers =
      List.range' s.next (cronCount t.triggers) ∧
    (Task.tryActivate parse t s).2.jobs =
      s.jobs ++ List.range' s.next (cronCount t.triggers) ∧
    (Task.tryActivate parse t s).2.next = s.next + cronCount t.triggers := by
  have hne : ¬(t.state = .activated) := by rw [hst]; exact fun h => nomatch h
  rcases hI : installAll parse t.triggers s with ⟨trs', s2, evs, err⟩
  have hspec := installAll_ok_spec parse t.triggers s hok hheld
  rw [hI] at hspec
  obtain ⟨h1, h2, h3, h4⟩ := hspec
  have hmap := installAll_trigSpecOf parse t.triggers s
  rw [hI] at hmap
  have herr : err = none := by simpa using h1
  subst herr
  have hgoal : Task.tryActivate parse t s =
      ({ t with
          triggers := trs'
          buffer := t.buffer ++ evs
          state := .activated }, s2) := by
    rw [Task.tryActivate, Task.activate, if_neg hne, hI]
  rw [hgoal]
  exact ⟨rfl, rfl, hmap, by simpa using h2, by simpa using h3, by simpa using h4⟩

theorem tryActivate_noop (parse : String → Bool) (u : Task) (s : Sched)
    (h : u.state = .activated) : Task.tryActivate parse u s = (u, s) := by
  rw [Task.tryActivate, Task.activate, if_pos h]

theorem update_spec (parse : String → Bool) (t : Task) (sp : TaskSpec)
    (s : Sched) (hact : t.state = .activated) (hA : t.aligned)
    (hsp : specOk parse sp = true) :
    ((t.update parse sp s).1.triggers = t.triggers ∧
      (t.update parse sp s).2 = s) ∨
    (∃ (k : Nat) (F : List Nat),
      (t.update parse sp s).2.jobs = F ++ List.range' s.next k ∧
      F.Sublist s.jobs ∧
      (∀ j : Nat, j ∈ F ↔ (j ∈ s.jobs ∧ j ∉ heldJobs t.triggers)) ∧
      heldJobs (t.update parse sp s).1.triggers = List.range' s.next k ∧
      (t.update parse sp s).2.next = s.next + k) := by
  have hA2 : t.triggers.map trigSpecOf = t.spec.triggers := hA
  by_cases hb1 : t.spec.task ≠ sp.task
  · rcases hD : t.deactivate s with ⟨td, sd⟩
    have hDs := deactivate_spec t s hact
    rw [hD] at hDs
    obtain ⟨d1, d2, d3, d4, d5, d6, d7⟩ := hDs
    by_cases hb2 : t.spec.triggers ≠ sp.triggers
    · -- body and triggers both rebuilt
      have hgoal : t.update parse sp s = Task.tryActivate parse
          { ({ td with body := sp.task }) with
              triggers := sp.triggers.map makeTrigger, spec := sp } sd := by
        simp only [Task.update]
        rw [if_pos hb1, hD]
        dsimp only
        rw [if_pos hb2]
        have hdd : Task.deactivate { td with body := sp.task } sd =
            ({ td with body := sp.task }, sd) := by
          rw [Task.deactivate, if_neg (by rw [d1]; exact fun h => nomatch h)]
        rw [hdd]
      rw [hgoal]
      have hfr := tryActivate_fresh_spec parse
        { ({ td with body := sp.task }) with
            triggers := sp.triggers.map makeTrigger, spec := sp } sd
        (by exact d1)
        (by
          refine all_trigOk_of_map parse _ sp.triggers ?_ hsp
          show (sp.triggers.map makeTrigger).map trigSpecOf = sp.triggers
          exact newTask_mapSpec sp)
        (by
          show heldJobs (sp.triggers.map makeTrigger) = []
          exact heldJobs_makeTriggers sp.triggers)
      obtain ⟨f1, f2, f3, f4, f5, f6⟩ := hfr
      refine Or.inr ⟨cronCount (sp.triggers.map makeTrigger), sd.jobs, ?_, d5, d6, ?_, ?_⟩
      · rw [f5, d7]
      · rw [f4, d7]
      · rw [f6, d7]
    · -- body rebuilt, triggers kept (handles cleared by deactivate)
      have hgoal : t.update parse sp s = Task.tryActivate parse
          { ({ td with body := sp.task }) with spec := sp } sd := by
        simp only [Task.update]
        rw [if_pos hb1, hD]
        dsimp only
        rw [if_neg hb2]
      rw [hgoal]
      have hfr := tryActivate_fresh_spec parse
        { ({ td with body := sp.task }) with spec := sp } sd
        (by exact d1)
        (by
          refine all_trigOk_of_map parse _ sp.triggers ?_ hsp
          show td.triggers.map trigSpecOf = sp.triggers
          rw [d4, hA2]
          exact not_not.mp hb2)
        (by exact d2)
      obtain ⟨f1, f2, f3, f4, f5, f6⟩ := hfr
      refine Or.inr ⟨cronCount td.triggers, sd.jobs, ?_, d5, d6, ?_, ?_⟩
      · rw [f5, d7]
      · rw [f4, d7]
      · rw [f6, d7]
  · by_cases hb2 : t.spec.triggers ≠ sp.triggers
    · -- triggers rebuilt only: the task is still Activated when deactivated here
      rcases hD : t.deactivate s with ⟨td, sd⟩
      have hDs := deactivate_spec t s hact
      rw [hD] at hDs
      obtain ⟨d1, d2, d3, d4, d5, d6, d7⟩ := hDs
      have hgoal : t.update parse sp s = Task.tryActivate parse
          { td with triggers := sp.triggers.map makeTrigger, spec := sp } sd := by
        simp only [Task.update]
        rw [if_neg hb1]
        dsimp only
        rw [if_pos hb2, hD]
      rw [hgoal]
      have hfr := tryActivate_fresh_spec parse
        { td with triggers := sp.triggers.map makeTrigger, spec := sp } sd
        (by exact d1)
        (by
          refine all_trigOk_of_map parse _ sp.triggers ?_ hsp
          show (sp.triggers.map makeTrigger).map trigSpecOf = sp.triggers
          exact newTask_mapSpec sp)
        (by
          show heldJobs (sp.triggers.map makeTrigger) = []
          exact heldJobs_makeTriggers sp.triggers)
      obtain ⟨f1, f2, f3, f4, f5, f6⟩ := hfr
      refine Or.inr ⟨cronCount (sp.triggers.map makeTrigger), sd.jobs, ?_, d5, d6, ?_, ?_⟩
      · rw [f5, d7]
      · rw [f4, d7]
      · rw [f6, d7]
    · -- nothing rebuilt: only the stored spec is replaced
      have hgoal : t.update parse sp s =
          Task.tryActivate parse { t with spec := sp } s := by
        simp only [Task.update]
        rw [if_neg hb1]
        dsimp only
        rw [if_neg hb2]
      rw [hgoal, tryActivate_noop parse { t with spec := sp } s (by exact hact)]
      exact Or.inl ⟨rfl, rfl⟩

theorem alInsert_not_mem_append {β : Type} (id : Nat) (v : β)
    (l : List (Nat × β)) (h : alLookup id l = none) :
    alInsert id v l = l ++ [(id, v)] := by
  induction l with
  | nil => rfl
  | cons p rest ih =>
    rcases p with ⟨k, w⟩
    by_cases hk : k = id
    · subst hk; simp [alLookup] at h
    · simp only [alLookup, if_neg hk] at h
      simp [alInsert, hk, ih h]

theorem alLookup_decomp {β : Type} (id : Nat) (v : β) (l : List (Nat × β))
    (h : alLookup id l = some v) :
    ∃ A B, l = A ++ (id, v) :: B ∧
      (∀ w : β, alInsert id w l = A ++ (id, w) :: B) ∧
      alErase id l = A ++ B := by
  induction l with
  | nil => simp [alLookup] at h
  | cons p rest ih =>
    rcases p with ⟨k, w0⟩
    by_cases hk : k = id
    · subst hk
      have hv : w0 = v := by simpa [alLookup] using h
      subst hv
      exact ⟨[], rest, rfl, fun w => by simp [alInsert], by simp [alErase]⟩
    · simp only [alLookup, if_neg hk] at h
      obtain ⟨A, B, h1, h2, h3⟩ := ih h
      refine ⟨(k, w0) :: A, B, by rw [h1]; rfl, fun w => ?_, ?_⟩
      · simp [alInsert, hk, h2 w]
      · simp [alErase, hk, h3]

theorem allHeld_append (l1 l2 : List (Nat × Task)) (s : Sched) :
    allHeld { sched := s, tasks := l1 ++ l2 } =
      allHeld { sched := s, tasks := l1 } ++
      allHeld { sched := s, tasks := l2 } := by
  simp [allHeld]

theorem schedInv_held_lt (m : Mgr) (h : schedInv m) :
    ∀ j ∈ allHeld m, j < m.sched.next := by
  intro j hj
  exact h.2.2.1 j ((h.2.2.2.2.2 j).mpr hj)

theorem allHeld_tasks (s s2 : Sched) (l : List (Nat × Task)) :
    allHeld { sched := s, tasks := l } = allHeld { sched := s2, tasks := l } := rfl

theorem allHeld_single (s : Sched) (id : Nat) (t : Task) :
    allHeld { sched := s, tasks := [(id, t)] } = heldJobs t.triggers := by
  simp [allHeld]

theorem invAddTask (parse : String → Bool) (m : Mgr) (id : Nat) (sp : TaskSpec)
    (hInv : schedInv m) (hfresh : alLookup id m.tasks = none)
    (hsp : specOk parse sp = true) :
    schedInv (m.addTask parse id sp) := by
  obtain ⟨i1, i2, i3, i4, i5, i6⟩ := hInv
  rcases hN : Task.tryActivate parse (Task.new sp) m.sched with ⟨t', s'⟩
  have hfr := tryActivate_fresh_spec parse (Task.new sp) m.sched rfl
    (all_trigOk_of_map parse _ sp.triggers (newTask_mapSpec sp) hsp)
    (heldJobs_makeTriggers sp.triggers)
  rw [hN] at hfr
  obtain ⟨f1, f2, f3, f4, f5, f6⟩ := hfr
  have hres : m.addTask parse id sp =
      { sched := s', tasks := alInsert id t' m.tasks } := by
    simp only [Mgr.addTask, hN]
  rw [hres]
  have hins : alInsert id t' m.tasks = m.tasks ++ [(id, t')] :=
    alInsert_not_mem_append id t' m.tasks hfresh
  have hAH : allHeld { sched := s', tasks := alInsert id t' m.tasks } =
      allHeld m ++ heldJobs t'.triggers := by
    rw [hins, allHeld_append, allHeld_single]
    rfl
  refine ⟨alInsert_nodup id t' m.tasks i1, ?_, ?_, ?_, ?_, ?_⟩
  · intro p hp
    rcases alInsert_mem id t' m.tasks p hp with h1 | h2
    · rw [h1]
      refine ⟨f1, ?_⟩
      show t'.triggers.map trigSpecOf = t'.spec.triggers
      rw [f3, f2]
      exact newTask_mapSpec sp
    · exact i2 p h2
  · intro j hj
    show j < s'.next
    rw [f6]
    rw [show ({ sched := s', tasks := alInsert id t' m.tasks } : Mgr).sched = s'
      from rfl, f5] at hj
    rcases List.mem_append.mp hj with h1 | h2
    · exact lt_of_lt_of_le (i3 j h1) (Nat.le_add_right _ _)
    · exact (List.mem_range'_1.mp h2).2
  · show s'.jobs.Nodup
    rw [f5]
    refine List.Nodup.append i4 (List.nodup_range' _ _) ?_
    intro x hx hx2
    have hb1 := i3 x hx
    have hb2 := (List.mem_range'_1.mp hx2).1
    omega
  · show (allHeld { sched := s', tasks := alInsert id t' m.tasks }).Nodup
    rw [hAH, f4]
    refine List.Nodup.append i5 (List.nodup_range' _ _) ?_
    intro x hx hx2
    have hb1 := i3 x ((i6 x).mpr hx)
    have hb2 := (List.mem_range'_1.mp hx2).1
    omega
  · intro j
    show j ∈ s'.jobs ↔ j ∈ allHeld { sched := s', tasks := alInsert id t' m.tasks }
    rw [f5, hAH, f4]
    simp only [List.mem_append, i6 j]

theorem allHeld_cons (s : Sched) (id : Nat) (t : Task)
    (rest : List (Nat × Task)) :
    allHeld { sched := s, tasks := (id, t) :: rest } =
      heldJobs t.triggers ++ allHeld { sched := s, tasks := rest } := by
  simp [allHeld]

theorem invRemoveTasks (m : Mgr) (ids : List Nat) (hInv : schedInv m) :
    schedInv (removeTasks m ids).1 := by
  induction ids generalizing m with
  | nil => simpa [removeTasks] using hInv
  | cons i rest ih =>
    rcases hL : alLookup i m.tasks with _ | t
    · simp only [removeTasks, hL]
      exact ih m hInv
    · rcases hD : t.deactivate m.sched with ⟨t', s'⟩
      rcases hR : removeTasks { sched := s', tasks := alErase i m.tasks } rest
          with ⟨m2, dropped⟩
      simp only [removeTasks, hL, hD, hR]
      show schedInv m2
      obtain ⟨i1, i2, i3, i4, i5, i6⟩ := hInv
      have hact : t.state = .activated :=
        (i2 (i, t) (alLookup_mem i t m.tasks hL)).1
      have hDs := deactivate_spec t m.sched hact
      rw [hD] at hDs
      obtain ⟨d1, d2, d3, d4, d5, d6, d7⟩ := hDs
      obtain ⟨A, B, hl, hIns, hEr⟩ := alLookup_decomp i t m.tasks hL
      have hAHm : allHeld m =
          allHeld { sched := m.sched, tasks := A } ++
          (heldJobs t.triggers ++ allHeld { sched := m.sched, tasks := B }) := by
        show allHeld { sched := m.sched, tasks := m.tasks } = _
        rw [hl, allHeld_append, allHeld_cons]
      have hAH' : allHeld { sched := s', tasks := alErase i m.tasks } =
          allHeld { sched := m.sched, tasks := A } ++
          allHeld { sched := m.sched, tasks := B } := by
        rw [allHeld_tasks s' m.sched, hEr, allHeld_append]
      have hnd := i5
      rw [hAHm, List.nodup_append] at hnd
      obtain ⟨hndA, hnd2, hdisjA⟩ := hnd
      rw [List.nodup_append] at hnd2
      obtain ⟨hndt, hndB, hdisjtB⟩ := hnd2
      have hstep : schedInv { sched := s', tasks := alErase i m.tasks } := by
        refine ⟨alErase_nodup i m.tasks i1, ?_, ?_, d5.nodup i4, ?_, ?_⟩
        · intro p hp
          exact i2 p ((alErase_sublist i m.tasks).subset hp)
        · intro j hj
          show j < s'.next
          rw [d7]
          exact i3 j (d5.subset hj)
        · show (allHeld { sched := s', tasks := alErase i m.tasks }).Nodup
          rw [hAH', List.nodup_append]
          refine ⟨hndA, hndB, ?_⟩
          intro a ha ha2
          exact hdisjA ha (List.mem_append_right _ ha2)
        · intro j
          show j ∈ s'.jobs ↔ _
          rw [d6 j, hAH']
          have hiff := i6 j
          rw [hAHm] at hiff
          rw [hiff]
          simp only [List.mem_append]
          constructor
          · rintro ⟨h1 | h2 | h3, hnot⟩
            · exact Or.inl h1
            · exact absurd h2 hnot
            · exact Or.inr h3
          · rintro (h1 | h2)
            · exact ⟨Or.inl h1, fun hc => hdisjA h1 (List.mem_append_left _ hc)⟩
            · exact ⟨Or.inr (Or.inr h2), fun hc => hdisjtB hc h2⟩
      have := ih { sched := s', tasks := alErase i m.tasks } hstep
      rw [hR] at this
      exact this

theorem invUpsertTasks (parse : String → Bool) (m : Mgr)
    (specs : List (Nat × TaskSpec)) (hInv : schedInv m)
    (hparse : ∀ p ∈ specs, specOk parse p.2 = true) :
    schedInv (upsertTasks parse m specs) := by
  induction specs generalizing m with
  | nil => simpa [upsertTasks] using hInv
  | cons q rest ih =>
    rcases q with ⟨k, sp⟩
    have hspk : specOk parse sp = true := hparse (k, sp) (List.mem_cons_self _ _)
    have hpr : ∀ p ∈ rest, specOk parse p.2 = true :=
      fun p hp => hparse p (List.mem_cons_of_mem _ hp)
    rcases hL : alLookup k m.tasks with _ | t
    · simp only [upsertTasks, hL]
      exact ih (m.addTask parse k sp) (invAddTask parse m k sp hInv hL hspk) hpr
    · rcases hU : t.update parse sp m.sched with ⟨t', s'⟩
      simp only [upsertTasks, hL, hU]
      obtain ⟨i1, i2, i3, i4, i5, i6⟩ := hInv
      have hact : t.state = .activated :=
        (i2 (k, t) (alLookup_mem k t m.tasks hL)).1
      have hal : t.aligned := (i2 (k, t) (alLookup_mem k t m.tasks hL)).2
      have hOK := update_ok parse t sp m.sched hal hspk
      rw [hU] at hOK
      obtain ⟨o1, o2, o3⟩ := hOK
      have hSP := update_spec parse t sp m.sched hact hal hspk
      rw [hU] at hSP
      obtain ⟨A, B, hl, hIns, hEr⟩ := alLookup_decomp k t m.tasks hL
      have hAHm : allHeld m =
          allHeld { sched := m.sched, tasks := A } ++
          (heldJobs t.triggers ++ allHeld { sched := m.sched, tasks := B }) := by
        show allHeld { sched := m.sched, tasks := m.tasks } = _
        rw [hl, allHeld_append, allHeld_cons]
      have hAH' : allHeld { sched := s', tasks := alInsert k t' m.tasks } =
          allHeld { sched := m.sched, tasks := A } ++
          (heldJobs t'.triggers ++ allHeld { sched := m.sched, tasks := B }) := by
        rw [allHeld_tasks s' m.sched, hIns t', allHeld_append, allHeld_cons]
      have hnd := i5
      rw [hAHm, List.nodup_append] at hnd
      obtain ⟨hndA, hnd2, hdisjA⟩ := hnd
      rw [List.nodup_append] at hnd2
      obtain ⟨hndt, hndB, hdisjtB⟩ := hnd2
      have hAlt : ∀ x, x ∈ allHeld { sched := m.sched, tasks := A } →
          x < m.sched.next := by
        intro x hx
        refine i3 x ((i6 x).mpr ?_)
        rw [hAHm]
        exact List.mem_append_left _ hx
      have hBlt : ∀ x, x ∈ allHeld { sched := m.sched, tasks := B } →
          x < m.sched.next := by
        intro x hx
        refine i3 x ((i6 x).mpr ?_)
        rw [hAHm]
        exact List.mem_append_right _ (List.mem_append_right _ hx)
      have hstep : schedInv { sched := s', tasks := alInsert k t' m.tasks } := by
        rcases hSP with ⟨he1, he2⟩ | ⟨kk, F, hj, hFsub, hFmem, hheld', hnext⟩
        · -- sched unchanged, triggers unchanged
          have he1' : t'.triggers = t.triggers := he1
          have he2' : s' = m.sched := he2
          refine ⟨alInsert_nodup k t' m.tasks i1, ?_, ?_, ?_, ?_, ?_⟩
          · intro p hp
            rcases alInsert_mem k t' m.tasks p hp with h1 | h2
            · rw [h1]; exact ⟨o2, o3⟩
            · exact i2 p h2
          · intro j hj
            show j < s'.next
            rw [he2'] at hj ⊢
            exact i3 j hj
          · show s'.jobs.Nodup
            rw [he2']
            exact i4
          · show (allHeld { sched := s', tasks := alInsert k t' m.tasks }).Nodup
            rw [hAH', he1', ← hAHm]
            exact i5
          · intro j
            show j ∈ s'.jobs ↔ _
            rw [hAH', he1', ← hAHm, he2']
            exact i6 j
        · -- triggers reinstalled with fresh jobs
          have hj' : s'.jobs = F ++ List.range' m.sched.next kk := hj
          have hheld2 : heldJobs t'.triggers = List.range' m.sched.next kk := hheld'
          have hnext' : s'.next = m.sched.next + kk := hnext
          refine ⟨alInsert_nodup k t' m.tasks i1, ?_, ?_, ?_, ?_, ?_⟩
          · intro p hp
            rcases alInsert_mem k t' m.tasks p hp with h1 | h2
            · rw [h1]; exact ⟨o2, o3⟩
            · exact i2 p h2
          · intro j hjm
            show j < s'.next
            rw [hnext']
            rw [show ({ sched := s', tasks := alInsert k t' m.tasks } : Mgr).sched = s'
              from rfl, hj'] at hjm
            rcases List.mem_append.mp hjm with h1 | h2
            · exact lt_of_lt_of_le (i3 j (hFsub.subset h1)) (Nat.le_add_right _ _)
            · exact (List.mem_range'_1.mp h2).2
          · show s'.jobs.Nodup
            rw [hj']
            refine List.Nodup.append (hFsub.nodup i4) (List.nodup_range' _ _) ?_
            intro x hx hx2
            have hb1 := i3 x (hFsub.subset hx)
            have hb2 := (List.mem_range'_1.mp hx2).1
            omega
          · show (allHeld { sched := s', tasks := alInsert k t' m.tasks }).Nodup
            rw [hAH', hheld2]
            rw [List.nodup_append]
            refine ⟨hndA, ?_, ?_⟩
            · rw [List.nodup_append]
              refine ⟨List.nodup_range' _ _, hndB, ?_⟩
              intro x hx hx2
              have hb1 := (List.mem_range'_1.mp hx).1
              have hb2 := hBlt x hx2
              omega
            · intro x hx hx2
              rcases List.mem_append.mp hx2 with h1 | h2
              · have hb1 := hAlt x hx
                have hb2 := (List.mem_range'_1.mp h1).1
                omega
              · exact hdisjA hx (List.mem_append_right _ h2)
          · intro j
            show j ∈ s'.jobs ↔ _
            rw [hj', hAH', hheld2]
            have hiff := i6 j
            rw [hAHm] at hiff
            simp only [List.mem_append] at hiff ⊢
            rw [show (j ∈ F ↔ (j ∈ m.sched.jobs ∧ j ∉ heldJobs t.triggers)) from hFmem j]
            constructor
            · rintro (⟨hjobs, hnotht⟩ | hr)
              · rcases hiff.mp hjobs with h1 | h2 | h3
                · exact Or.inl h1
                · exact absurd h2 hnotht
                · exact Or.inr (Or.inr h3)
              · exact Or.inr (Or.inl hr)
            · rintro (h1 | h2 | h3)
              · exact Or.inl ⟨hiff.mpr (Or.inl h1),
                  fun hc => hdisjA h1 (List.mem_append_left _ hc)⟩
              · exact Or.inr h2
              · exact Or.inl ⟨hiff.mpr (Or.inr (Or.inr h3)),
                  fun hc => hdisjtB hc h3⟩
      exact ih { sched := s', tasks := alInsert k t' m.tasks } hstep hpr

theorem invReload (parse : String → Bool) (m : Mgr)
    (specs : List (Nat × TaskSpec)) (hInv : schedInv m)
    (hparse : ∀ p ∈ specs, specOk parse p.2 = true) :
    schedInv (m.reload parse specs).1 := by
  rcases hR : removeTasks m ((m.tasks.map Prod.fst).filter
      (fun id => !((specs.map Prod.fst).contains id))) with ⟨m1, dropped⟩
  have h1 := invRemoveTasks m ((m.tasks.map Prod.fst).filter
      (fun id => !((specs.map Prod.fst).contains id))) hInv
  rw [hR] at h1
  simp only [Mgr.reload, hR]
  exact invUpsertTasks parse m1 specs h1 hparse

theorem schedInv_new : schedInv Mgr.new := by
  refine ⟨List.nodup_nil, ?_, ?_, List.nodup_nil, List.nodup_nil, ?_⟩
  · intro p hp; cases hp
  · intro j hj; cases hj
  · intro j
    constructor
    · intro hj; cases hj
    · intro hj; cases hj

theorem invRunOps (parse : String → Bool) (m : Mgr) (ops : List MOp)
    (hInv : schedInv m) (hops : opsOk parse m ops) :
    schedInv (runOps parse m ops) := by
  induction ops generalizing m with
  | nil => simpa [runOps] using hInv
  | cons op rest ih =>
    obtain ⟨h1, h2⟩ := hops
    show schedInv (runOps parse (applyOp parse m op) rest)
    cases op with
    | reload specs => exact ih (applyOp parse m (.reload specs)) (invReload parse m specs hInv h1) h2
    | addTask id sp => exact ih (applyOp parse m (.addTask id sp)) (invAddTask parse m id sp hInv h1.1 h1.2) h2

theorem activatedHeld_eq_allHeld (m : Mgr)
    (h : ∀ p ∈ m.tasks, p.2.state = .activated) :
    activatedHeld m = allHeld m := by
  simp only [activatedHeld, allHeld]
  congr 1
  refine List.map_congr_left ?_
  intro p hp
  rw [if_pos (h p hp)]

end Agent

/-- Claim C6, amended: in every state reachable from the fresh manager by
`reload` and `add_task` operations in which every cron expression offered
parses and `add_task` is only invoked on ids not already in the map (as
`reload` itself does), the scheduler's job set equals the disjoint union
of the handles held by Activated tasks' CronTriggers: job membership
coincides with held-handle membership, the job list has no duplicates, and
no handle is held by two triggers.  The side conditions are forced by the
counterexample: a failing cron expression leaves an installed job owned by
a task whose state field reads Deactivated (spec §9 sharp edge 1). -/
theorem claim_c6_scheduler_ownership (parse : String → Bool)
    (ops : List Agent.MOp)
    (hops : Agent.opsOk parse Agent.Mgr.new ops) :
    (∀ j : Nat, j ∈ (Agent.runOps parse Agent.Mgr.new ops).sched.jobs ↔
      j ∈ Agent.activatedHeld (Agent.runOps parse Agent.Mgr.new ops)) ∧
    (Agent.runOps parse Agent.Mgr.new ops).sched.jobs.Nodup ∧
    (Agent.activatedHeld (Agent.runOps parse Agent.Mgr.new ops)).Nodup := by
  have hInv := Agent.invRunOps parse Agent.Mgr.new ops Agent.schedInv_new hops
  have hAA : Agent.activatedHeld (Agent.runOps parse Agent.Mgr.new ops) =
      Agent.allHeld (Agent.runOps parse Agent.Mgr.new ops) :=
    Agent.activatedHeld_eq_allHeld _ (fun p hp => (hInv.2.1 p hp).1)
  rw [hAA]
  exact ⟨hInv.2.2.2.2.2, hInv.2.2.2.1, hInv.2.2.2.2.1⟩

/-- Witness for the amended C6 after one reload of a parsing spec. -/
theorem claim_c6_scheduler_ownership_witness :
    (Agent.runOps Agent.parseEx Agent.Mgr.new
      [.reload [(1, Agent.specGood)]]).sched.jobs.Nodup := by
  have h := claim_c6_scheduler_ownership Agent.parseEx
    [.reload [(1, Agent.specGood)]]
    ⟨by
      show ∀ p ∈ [((1 : Nat), Agent.specGood)],
        Agent.specOk Agent.parseEx p.2 = true
      decide, trivial⟩
  exact h.2.1

end FileAgent
